import Mathlib

/-!
Verification of the LingoAnki diary synchronization engine.

This file gives a shallow embedding, in Lean 4, of the core string-processing
functions of `lingoanki/diary.py` (classes `DiaryHandler` and `TprsCreation`),
and proves or refutes the specified properties of that code.

Modelling conventions:
* Python strings are modelled as `List Char` (named `Str` below); Python
  `dict`s (which preserve insertion order) are modelled as association lists
  whose update operation replaces in place and whose insertion appends.
* External collaborators (the OpenAI translation / title / Q&A services) are
  parameters: a function argument stands for one call to the collaborator.
  A fallible collaborator returns `Except`, mirroring a Python call that can
  raise (for example `json.loads` on malformed output); Lean `Except`
  propagation mirrors Python exception propagation.
* The regular expressions of the source are embedded as specialized
  leftmost-match scanners built from `splitFirst` (first occurrence of a
  literal needle), which agrees with Python `re` semantics (lazy `.*?`
  quantifiers, greedy `\s*`, `re.DOTALL`) on every input on which the first
  viable choice of each lazy group extends to a full match; this covers all
  inputs appearing in the theorems below.
-/

namespace LingoAnki

/-- Python strings, modelled as lists of characters. -/
abbrev Str := List Char

/-- Whitespace test matching the characters of the `\s` regex class and of
Python `str.strip` (restricted to ASCII). -/
def isWs (c : Char) : Bool :=
  c == ' ' || c == '\t' || c == '\n' || c == '\r' || c == '\x0b' || c == '\x0c'

/-- Python `str.lstrip`. -/
def trimLeft (s : Str) : Str := s.dropWhile isWs

/-- Python `str.rstrip`. -/
def trimRight (s : Str) : Str := (s.reverse.dropWhile isWs).reverse

/-- Python `str.strip`. -/
def trim (s : Str) : Str := trimLeft (trimRight s)

/-- Boolean test that `needle` is a prefix of `hay` (Python `str.startswith`). -/
def leadsWith : Str → Str → Bool
  | [], _ => true
  | _ :: _, [] => false
  | a :: as, b :: bs => a == b && leadsWith as bs

/-- First occurrence of the literal `needle`: returns the text before the
occurrence and the text after it.  This is the engine behind the embedded
regex scanners. -/
def splitFirst (needle : Str) : Str → Option (Str × Str)
  | [] => if needle = [] then some ([], []) else none
  | c :: rest =>
    if leadsWith needle (c :: rest) then some ([], (c :: rest).drop needle.length)
    else match splitFirst needle rest with
      | some (a, b) => some (c :: a, b)
      | none => none

section Dict

variable {K : Type} [DecidableEq K] {α : Type}

/-- Python `d[k] = v` on an insertion-ordered dict: replace in place if the
key exists, otherwise append. -/
def dictSet (k : K) (v : α) : List (K × α) → List (K × α)
  | [] => [(k, v)]
  | (k2, v2) :: rest => if k2 = k then (k, v) :: rest else (k2, v2) :: dictSet k v rest

/-- Python `d.get(k)` / `k in d` on an insertion-ordered dict. -/
def dictGet (k : K) : List (K × α) → Option α
  | [] => none
  | (k2, v) :: rest => if k2 = k then some v else dictGet k rest

theorem dictGet_dictSet (k k2 : K) (v : α) (d : List (K × α)) :
    dictGet k (dictSet k2 v d) = if k2 = k then some v else dictGet k d := by
  induction d with
  | nil => by_cases h : k2 = k <;> simp [dictSet, dictGet, h]
  | cons p rest ih =>
    obtain ⟨k3, v3⟩ := p
    by_cases h3 : k3 = k2
    · subst h3
      by_cases h : k3 = k <;> simp [dictSet, dictGet, h]
    · by_cases h : k3 = k
      · subst h
        have : ¬ k2 = k3 := fun hh => h3 hh.symm
        simp [dictSet, dictGet, h3, this]
      · simp [dictSet, dictGet, h3, h, ih]

theorem dictGet_eq_none_of_not_mem (k : K) (d : List (K × α))
    (h : k ∉ d.map Prod.fst) : dictGet k d = none := by
  induction d with
  | nil => rfl
  | cons p rest ih =>
    obtain ⟨k2, v2⟩ := p
    simp only [List.map_cons, List.mem_cons] at h
    push_neg at h
    have hne : k2 ≠ k := fun hh => h.1 hh.symm
    simp [dictGet, hne, ih h.2]

end Dict

/-! ## Companion-artifact synchronizer (claim C1)

Embedding of `TprsCreation.check_missing_sentences_from_existing_tprs`
(`diary.py` lines 2189-2240).  The function receives the parsed diary
(`markdown_diary_to_dict`, here abstracted as an ordered map from date to the
list of study-language sentences of that day) and the parsed existing TPRS
artifact (`read_tprs_to_dict`, an ordered map date → sentence → Q&A content),
and rebuilds `new_tprs_dict` by iterating over the diary: a sentence already
present in the artifact for that date is carried over unchanged, a missing
sentence gets freshly generated content (`openai_tprs`, abstracted as `gen`). -/

/-- Q&A content recorded for one sentence of a TPRS artifact: the ordered
(question, answer) pairs of its `qa_dict`. -/
abbrev Qa := List (Str × Str)

/-- Inner loop of `check_missing_sentences_from_existing_tprs` for one date:
rebuild the day from the diary sentences, carrying over existing units. -/
def syncDay (gen : Str → Qa) (tprsDay : List (Str × Qa)) (sentences : List Str) :
    List (Str × Qa) :=
  sentences.foldl
    (fun acc s =>
      match dictGet s tprsDay with
      | some qa => dictSet s qa acc
      | none => dictSet s (gen s) acc)
    []

/-- Embeds `TprsCreation.check_missing_sentences_from_existing_tprs`:
iterate over diary dates in order; a date absent from the TPRS dict starts
from an empty day (`tprs_dict[date_diary] = {}`). -/
def check_missing_sentences_from_existing_tprs (gen : Str → Qa)
    (diary : List (Str × List Str)) (tprs : List (Str × List (Str × Qa))) :
    List (Str × List (Str × Qa)) :=
  diary.foldl
    (fun acc p =>
      let tprsDay := (dictGet p.1 tprs).getD []
      dictSet p.1 (syncDay gen tprsDay p.2) acc)
    []

theorem syncDay_get (gen : Str → Qa) (tprsDay : List (Str × Qa))
    (sentences : List Str) (s : Str) :
    dictGet s (syncDay gen tprsDay sentences) =
      if s ∈ sentences then some ((dictGet s tprsDay).getD (gen s)) else none := by
  suffices h : ∀ acc : List (Str × Qa),
      dictGet s (sentences.foldl
        (fun acc s2 =>
          match dictGet s2 tprsDay with
          | some qa => dictSet s2 qa acc
          | none => dictSet s2 (gen s2) acc) acc) =
      if s ∈ sentences then some ((dictGet s tprsDay).getD (gen s))
      else dictGet s acc by
    have := h []
    simpa [syncDay, dictGet] using this
  induction sentences with
  | nil => intro acc; simp
  | cons s2 rest ih =>
    intro acc
    by_cases hmem : s ∈ s2 :: rest
    · rcases List.mem_cons.mp hmem with heq | hrest
      · subst heq
        by_cases hr : s ∈ rest
        · simp [List.foldl_cons, ih, hr, hmem]
        · cases hget : dictGet s tprsDay <;>
            simp [List.foldl_cons, ih, hr, hmem, dictGet_dictSet, hget]
      · simp [List.foldl_cons, ih, hrest, hmem]
    · have hs2 : s ∉ rest := fun hh => hmem (List.mem_cons_of_mem _ hh)
      have hne : ¬ s2 = s := fun hh => hmem (hh ▸ List.mem_cons_self s2 rest)
      cases hget : dictGet s2 tprsDay <;>
        simp [List.foldl_cons, ih, hs2, hmem, dictGet_dictSet, hne, hget]

theorem check_missing_foldl_get (gen : Str → Qa)
    (tprs : List (Str × List (Str × Qa))) (d : Str) :
    ∀ (diary : List (Str × List Str)) (acc : List (Str × List (Str × Qa))),
      (diary.map Prod.fst).Nodup →
      (∀ x, x ∈ diary.map Prod.fst → dictGet x acc = none) →
      dictGet d (diary.foldl
        (fun acc p =>
          let tprsDay := (dictGet p.1 tprs).getD []
          dictSet p.1 (syncDay gen tprsDay p.2) acc) acc) =
      (match dictGet d diary with
       | some ss => some (syncDay gen ((dictGet d tprs).getD []) ss)
       | none => dictGet d acc) := by
  intro diary
  induction diary with
  | nil => intro acc _ _; simp [dictGet]
  | cons p rest ih =>
    intro acc hnd hacc
    obtain ⟨d2, ss2⟩ := p
    simp only [List.map_cons, List.nodup_cons] at hnd
    have hacc2 : ∀ x, x ∈ rest.map Prod.fst →
        dictGet x (dictSet d2 (syncDay gen ((dictGet d2 tprs).getD []) ss2) acc)
          = none := by
      intro x hx
      rw [dictGet_dictSet]
      by_cases hxd : d2 = x
      · exact absurd (hxd ▸ hx) hnd.1
      · simp only [hxd, if_false]
        exact hacc x (List.mem_cons_of_mem _ hx)
    simp only [List.foldl_cons]
    rw [ih _ hnd.2 hacc2]
    by_cases hd : d2 = d
    · subst hd
      have hrest : dictGet d2 rest = none :=
        dictGet_eq_none_of_not_mem _ _ hnd.1
      simp [dictGet, hrest, dictGet_dictSet]
    · cases hr : dictGet d rest <;> simp [dictGet, hd, hr, dictGet_dictSet]

theorem check_missing_get (gen : Str → Qa) (diary : List (Str × List Str))
    (tprs : List (Str × List (Str × Qa)))
    (hnd : (diary.map Prod.fst).Nodup) (d : Str) :
    dictGet d (check_missing_sentences_from_existing_tprs gen diary tprs) =
      (dictGet d diary).map
        (fun ss => syncDay gen ((dictGet d tprs).getD []) ss) := by
  have := check_missing_foldl_get gen tprs d diary [] hnd (fun x _ => rfl)
  rw [check_missing_sentences_from_existing_tprs, this]
  cases hd : dictGet d diary <;> simp [dictGet]

/-- C1 (amended): synchronization is additive over the diary.  For every
diary and existing TPRS artifact, the resulting artifact contains exactly the
(date, sentence) units of the diary; a unit present in both the diary and the
artifact is carried forward with byte-identical Q&A content, a diary unit
absent from the artifact gets freshly generated content, dates absent from
the diary are dropped, and (as the counterexample shows) an artifact unit
whose sentence is not in the diary for that date does not survive. -/
theorem check_missing_sync_additive (gen : Str → Qa)
    (diary : List (Str × List Str)) (tprs : List (Str × List (Str × Qa)))
    (hnd : (diary.map Prod.fst).Nodup) :
    (∀ d, dictGet d diary = none →
      dictGet d (check_missing_sentences_from_existing_tprs gen diary tprs)
        = none) ∧
    (∀ d ss s qa, dictGet d diary = some ss → s ∈ ss →
      dictGet s ((dictGet d tprs).getD []) = some qa →
      (dictGet d (check_missing_sentences_from_existing_tprs gen diary tprs)).bind
        (dictGet s) = some qa) ∧
    (∀ d ss s, dictGet d diary = some ss → s ∈ ss →
      dictGet s ((dictGet d tprs).getD []) = none →
      (dictGet d (check_missing_sentences_from_existing_tprs gen diary tprs)).bind
        (dictGet s) = some (gen s)) ∧
    (∀ d ss s, dictGet d diary = some ss → s ∉ ss →
      (dictGet d (check_missing_sentences_from_existing_tprs gen diary tprs)).bind
        (dictGet s) = none) := by
  refine ⟨?_, ?_, ?_, ?_⟩
  · intro d hd
    rw [check_missing_get gen diary tprs hnd d, hd]
    rfl
  · intro d ss s qa hd hs hqa
    rw [check_missing_get gen diary tprs hnd d, hd]
    simp [syncDay_get, hs, hqa]
  · intro d ss s hd hs hqa
    rw [check_missing_get gen diary tprs hnd d, hd]
    simp [syncDay_get, hs, hqa]
  · intro d ss s hd hs
    rw [check_missing_get gen diary tprs hnd d, hd]
    simp [syncDay_get, hs]

/-- Witness for `check_missing_sync_additive` at a concrete input: diary
maps date «d» to sentence «a»; the artifact has Q&A for «a»; the carried
unit is byte-identical. -/
theorem check_missing_sync_additive_witness :
    (([([('d' : Char)], [[('a' : Char)]])].map Prod.fst).Nodup) ∧
    ((dictGet [('d' : Char)]
        (check_missing_sentences_from_existing_tprs (fun _ => [])
          [([('d' : Char)], [[('a' : Char)]])]
          [([('d' : Char)], [([('a' : Char)], [([('q' : Char)], [('r' : Char)])])])])).bind
      (dictGet [('a' : Char)]) = some [([('q' : Char)], [('r' : Char)])]) := by
  constructor
  · decide
  · exact (check_missing_sync_additive (fun _ => [])
      [([('d' : Char)], [[('a' : Char)]])]
      [([('d' : Char)], [([('a' : Char)], [([('q' : Char)], [('r' : Char)])])])]
      (by decide)).2.1 [('d' : Char)] [[('a' : Char)]] [('a' : Char)]
      [([('q' : Char)], [('r' : Char)])] (by decide) (by decide) (by decide)

/-- Counterexample to C1 as stated: the artifact holds a unit (date «d»,
sentence «b») that is not in the diary; after synchronization that unit is
gone, so it is false that every unit already present in the artifact appears
unchanged in the result. -/
theorem check_missing_drops_foreign_unit :
    dictGet [('b' : Char)]
        ((dictGet [('d' : Char)]
          [([('d' : Char)],
            [([('a' : Char)], [([('q' : Char)], [('r' : Char)])]),
             ([('b' : Char)], [([('s' : Char)], [('t' : Char)])])])]).getD [])
      = some [([('s' : Char)], [('t' : Char)])] ∧
    dictGet [('b' : Char)]
        ((dictGet [('d' : Char)]
          (check_missing_sentences_from_existing_tprs (fun _ => [])
            [([('d' : Char)], [[('a' : Char)]])]
            [([('d' : Char)],
              [([('a' : Char)], [([('q' : Char)], [('r' : Char)])]),
               ([('b' : Char)], [([('s' : Char)], [('t' : Char)])])])])).getD [])
      = none := by
  decide

/-! ## Entry enrichment (claims C3, C6, C8)

Embedding of `DiaryHandler.diary_complete_translations` (`diary.py` lines
1157-1181) and `DiaryHandler.openai_translate_sentence` (lines 895-957).
A diary entry is a parsed sentence dict with keys
`primary_language_sentence`, `study_language_sentence_trial`,
`study_language_sentence`, `tips` (here `primary`, `trial`, `study`, `tips`).
The translation collaborator is a parameter returning either a parsed
response (`CollabSentence`) or an error; the error stands for an API failure
or a `json.loads` raise on malformed output, neither of which is caught
anywhere in `diary_complete_translations`, so in the embedding an error
propagates out of the loop exactly as the Python exception does.  The `Nat`
component counts translation-collaborator calls. -/

/-- Parsed sentence dict of the diary model. -/
structure DiaryEntry where
  primary : Str
  trial : Str
  study : Str
  tips : Str
deriving DecidableEq

/-- Response of the translation collaborator after JSON parsing: the
`output["sentence"]` dict produced by the model (before the caller re-inserts
the trial translation). -/
structure CollabSentence where
  primary : Str
  study : Str
  tips : Str
deriving DecidableEq

/-- Embeds `DiaryHandler.openai_translate_sentence`: obtain the collaborator
response (an `Except.error` models an uncaught API failure or `json.loads`
raise), then overwrite `study_language_sentence_trial` with the input
entry's value and return `output["sentence"]`. -/
def openai_translate_sentence (response : Except Str CollabSentence)
    (sentence_dict : DiaryEntry) : Except Str DiaryEntry :=
  match response with
  | .error msg => .error msg
  | .ok r =>
      .ok { primary := r.primary, study := r.study, tips := r.tips,
            trial := sentence_dict.trial }

/-- Inner loop of `diary_complete_translations` over one day's sentences:
an entry with empty `study_language_sentence` is (when
`create_diary_answers_auto` is set) replaced by the collaborator result;
all other entries are untouched.  The counter counts collaborator calls. -/
def completeDay (auto : Bool) (tr : DiaryEntry → Except Str CollabSentence) :
    List DiaryEntry → Except Str (List DiaryEntry × Nat)
  | [] => .ok ([], 0)
  | e :: rest =>
    if e.study.isEmpty && auto then
      match openai_translate_sentence (tr e) e with
      | .error msg => .error msg
      | .ok e2 =>
        match completeDay auto tr rest with
        | .error msg => .error msg
        | .ok p => .ok (e2 :: p.1, p.2 + 1)
    else
      match completeDay auto tr rest with
      | .error msg => .error msg
      | .ok p => .ok (e :: p.1, p.2)

/-- Embeds the enrichment loop of `DiaryHandler.diary_complete_translations`
(the iteration over `diary_dict` between parsing and `write_diary`): days are
processed in order and an uncaught collaborator exception aborts the whole
run. -/
def diary_complete_translations (auto : Bool)
    (tr : DiaryEntry → Except Str CollabSentence) :
    List (Str × List DiaryEntry) →
      Except Str (List (Str × List DiaryEntry) × Nat)
  | [] => .ok ([], 0)
  | (d, es) :: rest =>
    match completeDay auto tr es with
    | .error msg => .error msg
    | .ok p =>
      match diary_complete_translations auto tr rest with
      | .error msg => .error msg
      | .ok q => .ok ((d, p.1) :: q.1, p.2 + q.2)

theorem completeDay_of_complete (auto : Bool)
    (tr : DiaryEntry → Except Str CollabSentence) (es : List DiaryEntry)
    (h : ∀ e ∈ es, e.study ≠ []) : completeDay auto tr es = .ok (es, 0) := by
  induction es with
  | nil => rfl
  | cons e rest ih =>
    have hne : e.study.isEmpty = false := by
      cases hs : e.study with
      | nil => exact absurd hs (h e (List.mem_cons_self _ _))
      | cons c cs => rfl
    have ihr := ih (fun x hx => h x (List.mem_cons_of_mem _ hx))
    simp [completeDay, hne, ihr]

/-- On an already fully enriched diary the enrichment loop returns the diary
unchanged with zero collaborator calls, for every collaborator (even an
always-failing one, since it is never consulted). -/
theorem diary_complete_translations_of_complete (auto : Bool)
    (tr : DiaryEntry → Except Str CollabSentence)
    (diary : List (Str × List DiaryEntry))
    (h : ∀ p ∈ diary, ∀ e ∈ p.2, e.study ≠ []) :
    diary_complete_translations auto tr diary = .ok (diary, 0) := by
  induction diary with
  | nil => rfl
  | cons p rest ih =>
    obtain ⟨d, es⟩ := p
    have hday := completeDay_of_complete auto tr es
      (fun e he => h (d, es) (List.mem_cons_self _ _) e he)
    have ihr := ih (fun q hq => h q (List.mem_cons_of_mem _ hq))
    simp [diary_complete_translations, hday, ihr]

theorem nil_of_isEmpty (s : Str) (h : s.isEmpty = true) : s = [] := by
  cases s with
  | nil => rfl
  | cons c cs =>
    rw [List.isEmpty_cons] at h
    exact absurd h (by decide)

theorem completeDay_collab_only_empty (auto : Bool)
    (tr tr2 : DiaryEntry → Except Str CollabSentence)
    (h : ∀ e : DiaryEntry, e.study = [] → tr e = tr2 e) :
    ∀ es, completeDay auto tr es = completeDay auto tr2 es := by
  intro es
  induction es with
  | nil => rfl
  | cons e rest ih =>
    rw [completeDay, completeDay]
    by_cases hc : (e.study.isEmpty && auto) = true
    · have hse : e.study = [] := nil_of_isEmpty e.study (by
        rw [Bool.and_eq_true] at hc
        exact hc.1)
      rw [if_pos hc, if_pos hc, h e hse, ih]
    · rw [if_neg hc, if_neg hc, ih]

theorem diary_collab_only_empty (auto : Bool)
    (tr tr2 : DiaryEntry → Except Str CollabSentence)
    (h : ∀ e : DiaryEntry, e.study = [] → tr e = tr2 e) :
    ∀ diary, diary_complete_translations auto tr diary
      = diary_complete_translations auto tr2 diary := by
  intro diary
  induction diary with
  | nil => rfl
  | cons p rest ih =>
    obtain ⟨d, es⟩ := p
    rw [diary_complete_translations, diary_complete_translations,
      completeDay_collab_only_empty auto tr tr2 h es, ih]

theorem completeDay_ok_preserves (auto : Bool)
    (tr : DiaryEntry → Except Str CollabSentence) :
    ∀ es out n, completeDay auto tr es = .ok (out, n) →
      out.length = es.length ∧
      ∀ ee ∈ es.zip out, ee.1.study ≠ [] → ee.2 = ee.1 := by
  intro es
  induction es with
  | nil =>
    intro out n h
    rw [completeDay] at h
    injection h with h1
    injection h1 with ho hn
    subst ho
    exact ⟨rfl, fun ee hee => absurd hee (List.not_mem_nil ee)⟩
  | cons e rest ih =>
    intro out n h
    rw [completeDay] at h
    by_cases hc : (e.study.isEmpty && auto) = true
    · have hse : e.study = [] := nil_of_isEmpty e.study (by
        rw [Bool.and_eq_true] at hc
        exact hc.1)
      rw [if_pos hc] at h
      cases htr : openai_translate_sentence (tr e) e with
      | error msg =>
        simp only [htr] at h
        exact absurd h (by simp)
      | ok e2 =>
        simp only [htr] at h
        cases hrest : completeDay auto tr rest with
        | error msg =>
          simp only [hrest] at h
          exact absurd h (by simp)
        | ok p =>
          simp only [hrest] at h
          injection h with h1
          injection h1 with ho hn
          subst ho
          obtain ⟨hlen, hzip⟩ := ih p.1 p.2 (by rw [hrest])
          refine ⟨by simp [hlen], ?_⟩
          intro ee hee
          rw [List.zip_cons_cons] at hee
          rcases List.mem_cons.mp hee with rfl | hee2
          · intro hne
            exact absurd hse hne
          · exact hzip ee hee2
    · rw [if_neg hc] at h
      cases hrest : completeDay auto tr rest with
      | error msg =>
        simp only [hrest] at h
        exact absurd h (by simp)
      | ok p =>
        simp only [hrest] at h
        injection h with h1
        injection h1 with ho hn
        subst ho
        obtain ⟨hlen, hzip⟩ := ih p.1 p.2 (by rw [hrest])
        refine ⟨by simp [hlen], ?_⟩
        intro ee hee
        rw [List.zip_cons_cons] at hee
        rcases List.mem_cons.mp hee with rfl | hee2
        · intro _
          rfl
        · exact hzip ee hee2

theorem diary_ok_preserves (auto : Bool)
    (tr : DiaryEntry → Except Str CollabSentence) :
    ∀ diary out n, diary_complete_translations auto tr diary = .ok (out, n) →
      out.length = diary.length ∧
      ∀ pq ∈ diary.zip out,
        pq.2.1 = pq.1.1 ∧ pq.2.2.length = pq.1.2.length ∧
        ∀ ee ∈ pq.1.2.zip pq.2.2, ee.1.study ≠ [] → ee.2 = ee.1 := by
  intro diary
  induction diary with
  | nil =>
    intro out n h
    rw [diary_complete_translations] at h
    injection h with h1
    injection h1 with ho hn
    subst ho
    exact ⟨rfl, fun pq hpq => absurd hpq (List.not_mem_nil pq)⟩
  | cons p rest ih =>
    obtain ⟨d, es⟩ := p
    intro out n h
    rw [diary_complete_translations] at h
    cases hday : completeDay auto tr es with
    | error msg =>
      simp only [hday] at h
      exact absurd h (by simp)
    | ok q =>
      simp only [hday] at h
      cases hrest : diary_complete_translations auto tr rest with
      | error msg =>
        simp only [hrest] at h
        exact absurd h (by simp)
      | ok r =>
        simp only [hrest] at h
        injection h with h1
        injection h1 with ho hn
        subst ho
        obtain ⟨hlen1, hz1⟩ := completeDay_ok_preserves auto tr es q.1 q.2
          (by rw [hday])
        obtain ⟨hlen2, hz2⟩ := ih r.1 r.2 (by rw [hrest])
        refine ⟨by simp [hlen2], ?_⟩
        intro pq hpq
        rw [List.zip_cons_cons] at hpq
        rcases List.mem_cons.mp hpq with rfl | hpq2
        · exact ⟨rfl, hlen1, hz1⟩
        · exact hz2 pq hpq2

/-- C3: for every diary — mixed ones included — the enrichment pass consults
the translation collaborator only for entries with an empty
`study_language_sentence` (replacing the collaborator by one that agrees on
incomplete entries leaves the whole run's outcome unchanged), and a
successful run returns the days in order with every COMPLETE entry carried
through byte-identically in its place; consequently an already fully
enriched diary passes through unchanged with zero collaborator calls, for
every collaborator. -/
theorem diary_complete_translations_spec (auto : Bool)
    (tr tr2 : DiaryEntry → Except Str CollabSentence)
    (diary : List (Str × List DiaryEntry)) :
    ((∀ e : DiaryEntry, e.study = [] → tr e = tr2 e) →
      diary_complete_translations auto tr diary
        = diary_complete_translations auto tr2 diary)
    ∧ (∀ out n, diary_complete_translations auto tr diary = .ok (out, n) →
        out.length = diary.length ∧
        ∀ pq ∈ diary.zip out,
          pq.2.1 = pq.1.1 ∧ pq.2.2.length = pq.1.2.length ∧
          ∀ ee ∈ pq.1.2.zip pq.2.2, ee.1.study ≠ [] → ee.2 = ee.1)
    ∧ ((∀ p ∈ diary, ∀ e ∈ p.2, e.study ≠ []) →
        diary_complete_translations auto tr diary = .ok (diary, 0)) :=
  ⟨fun h => diary_collab_only_empty auto tr tr2 h diary,
   diary_ok_preserves auto tr diary,
   diary_complete_translations_of_complete auto tr diary⟩

/-- C6 (code evaluated at the failing input): with two incomplete entries in
the batch and a collaborator that fails (malformed output) on the first one,
the whole enrichment run aborts with the error — the second entry is never
enriched and nothing is returned — contradicting the specified per-entry
failure recovery. -/
theorem diary_complete_translations_aborts_on_failure :
    diary_complete_translations true
      (fun e => if e.primary = [('p' : Char), ('1' : Char)]
        then .error [('b' : Char), ('a' : Char), ('d' : Char)]
        else .ok { primary := e.primary, study := [('s' : Char)],
                   tips := [('t' : Char)] })
      [([('d' : Char)],
        [({ primary := [('p' : Char), ('1' : Char)], trial := [], study := [],
            tips := [] } : DiaryEntry),
         ({ primary := [('p' : Char), ('2' : Char)], trial := [], study := [],
            tips := [] } : DiaryEntry)])]
    = .error [('b' : Char), ('a' : Char), ('d' : Char)] := by
  rfl

/-- C8: whatever the collaborator returns for the translation and the tips,
the entry produced by `openai_translate_sentence` carries the input entry's
trial translation verbatim. -/
theorem openai_translate_sentence_preserves_trial
    (response : Except Str CollabSentence) (e out : DiaryEntry)
    (h : openai_translate_sentence response e = .ok out) :
    out.trial = e.trial := by
  cases response with
  | error msg => exact absurd h (by simp [openai_translate_sentence])
  | ok r =>
    have : out = { primary := r.primary, study := r.study, tips := r.tips,
                   trial := e.trial } := by
      simpa [openai_translate_sentence] using h.symm
    rw [this]

/-- Witness for `openai_translate_sentence_preserves_trial` at a concrete
response and entry. -/
theorem openai_translate_sentence_preserves_trial_witness :
    openai_translate_sentence
        (.ok ({ primary := [('p' : Char)], study := [('s' : Char)],
                tips := [('t' : Char)] } : CollabSentence))
        ({ primary := [('p' : Char)], trial := [('m' : Char), ('y' : Char)],
           study := [], tips := [] } : DiaryEntry)
      = .ok ({ primary := [('p' : Char)], trial := [('m' : Char), ('y' : Char)],
               study := [('s' : Char)], tips := [('t' : Char)] } : DiaryEntry) ∧
    DiaryEntry.trial
        ({ primary := [('p' : Char)], trial := [('m' : Char), ('y' : Char)],
           study := [('s' : Char)], tips := [('t' : Char)] } : DiaryEntry)
      = [('m' : Char), ('y' : Char)] := by
  refine ⟨by rfl, ?_⟩
  exact openai_translate_sentence_preserves_trial
    (.ok ({ primary := [('p' : Char)], study := [('s' : Char)],
            tips := [('t' : Char)] } : CollabSentence))
    ({ primary := [('p' : Char)], trial := [('m' : Char), ('y' : Char)],
       study := [], tips := [] } : DiaryEntry)
    ({ primary := [('p' : Char)], trial := [('m' : Char), ('y' : Char)],
       study := [('s' : Char)], tips := [('t' : Char)] } : DiaryEntry)
    (by rfl)

/-! ## TPRS day-block reader (claim C9)

Embedding of the question/answer loop of `TprsCreation.read_tprs_day_block`
(`diary.py` lines 1489-1515): the block is split on newlines, each line is
stripped, and an `elif` chain on the configured `template_tprs` markers
drives a little state machine with a current sentence and a current
question; recorded pairs go into a `defaultdict(list)` keyed by sentence.
Python truthiness of `current_setning` / `current_question` (`None` and the
empty string are both falsy) is embedded by `truthy`. -/

/-- Python `str.split` on a newline: `"a\nb\n"` gives `["a", "b", ""]`. -/
def splitLines : Str → List Str
  | [] => [[]]
  | c :: rest =>
    if c = '\n' then [] :: splitLines rest
    else
      match splitLines rest with
      | l :: ls => (c :: l) :: ls
      | [] => [[c]]

/-- Marker strings of `config["template_tprs"]`. -/
structure TprsMarkers where
  sentence : Str
  question : Str
  answer : Str
deriving DecidableEq

/-- Python truthiness of an optional string: `None` and `""` are falsy. -/
def truthy : Option Str → Bool
  | none => false
  | some s => !s.isEmpty

/-- Appending to `result[k]` on a `defaultdict(list)`: the pair joins the
existing list for `k`, or `k` is inserted at the end with a one-pair list. -/
def dictAppend (k : Str) (p : Str × Str) : List (Str × Qa) → List (Str × Qa)
  | [] => [(k, [p])]
  | (k2, ps) :: rest =>
    if k2 = k then (k2, ps ++ [p]) :: rest else (k2, ps) :: dictAppend k p rest

/-- One iteration of the `for line in day_block.split("\n")` loop of
`read_tprs_day_block`. -/
def read_tprs_step (m : TprsMarkers) :
    (Option Str × Option Str × List (Str × Qa)) → Str →
    (Option Str × Option Str × List (Str × Qa))
  | (cs, cq, res), rawLine =>
    let line := trim rawLine
    if leadsWith m.sentence line then
      (some (trim (line.drop m.sentence.length)), cq, res)
    else if leadsWith m.question line && truthy cs then
      (cs, some (trim (line.drop m.question.length)), res)
    else if leadsWith m.answer line && (truthy cs && truthy cq) then
      match cs, cq with
      | some s, some q =>
          (some s, none, dictAppend s (q, trim (line.drop m.answer.length)) res)
      | _, _ => (cs, cq, res)
    else (cs, cq, res)

/-- Embeds the Q&A loop of `TprsCreation.read_tprs_day_block`: the
`defaultdict` of sentence → (question, answer) pairs built from a day
block (the preceding date/title match of that function does not touch this
result and is claimed separately). -/
def read_tprs_day_block_qa (m : TprsMarkers) (day_block : Str) :
    List (Str × Qa) :=
  ((splitLines day_block).foldl (read_tprs_step m) (none, none, [])).2.2

/-- Classification of one (stripped) line by the marker tests of the source's
`elif` chain, in its priority order. -/
inductive TprsLine where
  | sent (s : Str)
  | ques (q : Str)
  | answ (a : Str)
  | other
deriving DecidableEq

/-- Applies the source's marker tests, in order, to one raw line. -/
def classifyTprsLine (m : TprsMarkers) (rawLine : Str) : TprsLine :=
  let line := trim rawLine
  if leadsWith m.sentence line then .sent (trim (line.drop m.sentence.length))
  else if leadsWith m.question line then .ques (trim (line.drop m.question.length))
  else if leadsWith m.answer line then .answ (trim (line.drop m.answer.length))
  else .other

/-- Modelled from the claim's words: each recorded pair is tagged with the
most recently seen sentence line; question and answer lines before any
sentence line are ignored; an answer with no pending question is ignored;
a question is cleared once paired, so it contributes at most one pair.
The result lists the recorded (sentence, (question, answer)) triples in
document order. -/
def claimTprsPairs : Option Str → Option Str → List TprsLine →
    List (Str × (Str × Str))
  | recent, pending, [] => []
  | recent, pending, .sent s :: rest => claimTprsPairs (some s) pending rest
  | recent, pending, .ques q :: rest =>
    if recent.isSome then claimTprsPairs recent (some q) rest
    else claimTprsPairs recent pending rest
  | recent, pending, .answ a :: rest =>
    match recent, pending with
    | some s, some q => (s, (q, a)) :: claimTprsPairs (some s) none rest
    | _, _ => claimTprsPairs recent pending rest
  | recent, pending, .other :: rest => claimTprsPairs recent pending rest

/-- Side condition for the claim: marker lines carry non-empty contents
(Python truthiness of the stored strings then coincides with presence). -/
def tprsContentOk (m : TprsMarkers) (l : Str) : Bool :=
  match classifyTprsLine m l with
  | .sent s => !s.isEmpty
  | .ques q => !q.isEmpty
  | _ => true

theorem ne_nil_of_not_isEmpty (s : Str) (h : (!s.isEmpty) = true) : s ≠ [] := by
  cases s with
  | nil => exact absurd h (by decide)
  | cons c cs => exact List.cons_ne_nil c cs

theorem tprs_loop_eq_claim (m : TprsMarkers) :
    ∀ (lines : List Str) (cs cq : Option Str) (res : List (Str × Qa)),
      (∀ l ∈ lines, tprsContentOk m l = true) →
      (∀ s, cs = some s → s ≠ []) →
      (∀ q, cq = some q → q ≠ []) →
      (lines.foldl (read_tprs_step m) (cs, cq, res)).2.2 =
        (claimTprsPairs cs cq (lines.map (classifyTprsLine m))).foldl
          (fun acc p => dictAppend p.1 p.2 acc) res := by
  intro lines
  induction lines with
  | nil => intro cs cq res _ _ _; rfl
  | cons l rest ih =>
    intro cs cq res hline hcs hcq
    have hl := hline l (List.mem_cons_self _ _)
    have hrest := fun x hx => hline x (List.mem_cons_of_mem _ hx)
    have truthy_iff : ∀ o : Option Str, (∀ s, o = some s → s ≠ []) →
        truthy o = o.isSome := by
      intro o ho
      cases o with
      | none => rfl
      | some s =>
        have hs := ho s rfl
        cases s with
        | nil => exact absurd rfl hs
        | cons c cs2 => rfl
    simp only [List.foldl_cons, List.map_cons]
    by_cases h1 : leadsWith m.sentence (trim l) = true
    · have hcls : classifyTprsLine m l
          = .sent (trim ((trim l).drop m.sentence.length)) := by
        simp [classifyTprsLine, h1]
      have hstep : read_tprs_step m (cs, cq, res) l
          = (some (trim ((trim l).drop m.sentence.length)), cq, res) := by
        simp [read_tprs_step, h1]
      rw [hstep, hcls]
      have hne : trim ((trim l).drop m.sentence.length) ≠ [] := by
        apply ne_nil_of_not_isEmpty
        simpa only [tprsContentOk, hcls] using hl
      rw [ih _ _ _ hrest (fun s hs => by injection hs with h; exact h ▸ hne) hcq]
      rfl
    · by_cases h2 : leadsWith m.question (trim l) = true
      · have hcls : classifyTprsLine m l
            = .ques (trim ((trim l).drop m.question.length)) := by
          simp [classifyTprsLine, h1, h2]
        have hne : trim ((trim l).drop m.question.length) ≠ [] := by
          apply ne_nil_of_not_isEmpty
          simpa only [tprsContentOk, hcls] using hl
        by_cases h3 : truthy cs = true
        · have hsome : cs.isSome := by rw [← truthy_iff cs hcs]; exact h3
          have hstep : read_tprs_step m (cs, cq, res) l
              = (cs, some (trim ((trim l).drop m.question.length)), res) := by
            simp [read_tprs_step, h1, h2, h3]
          rw [hstep, hcls]
          simp only [claimTprsPairs, hsome, if_true]
          exact ih _ _ _ hrest hcs (fun q hq => by injection hq with h; exact h ▸ hne)
        · have hnone : cs = none := by
            cases cs with
            | none => rfl
            | some s =>
              have ht : truthy (some s) = true := by
                rw [truthy_iff (some s) hcs]; rfl
              exact absurd ht h3
          subst hnone
          have hstep : read_tprs_step m (none, cq, res) l = (none, cq, res) := by
            simp [read_tprs_step, h1, h2, truthy]
          rw [hstep, hcls]
          simp only [claimTprsPairs, Option.isSome_none, Bool.false_eq_true,
            if_false]
          exact ih _ _ _ hrest (fun s hs => by cases hs) hcq
      · by_cases h3 : leadsWith m.answer (trim l) = true
        · have hcls : classifyTprsLine m l
              = .answ (trim ((trim l).drop m.answer.length)) := by
            simp [classifyTprsLine, h1, h2, h3]
          rw [hcls]
          by_cases h4 : truthy cs = true
          · obtain ⟨s, hs⟩ := Option.isSome_iff_exists.mp
              (by rw [← truthy_iff cs hcs]; exact h4)
            by_cases h5 : truthy cq = true
            · obtain ⟨q, hq⟩ := Option.isSome_iff_exists.mp
                (by rw [← truthy_iff cq hcq]; exact h5)
              subst hs; subst hq
              have hstep : read_tprs_step m (some s, some q, res) l
                  = (some s, none,
                     dictAppend s (q, trim ((trim l).drop m.answer.length)) res) := by
                simp [read_tprs_step, h1, h2, h3, h4, h5]
              rw [hstep]
              simp only [claimTprsPairs, List.foldl_cons]
              exact ih _ _ _ hrest hcs (fun q2 hq2 => by cases hq2)
            · have hqnone : cq = none := by
                cases cq with
                | none => rfl
                | some q => exact absurd (truthy_iff (some q) hcq ▸ rfl) h5
              subst hs; subst hqnone
              have hstep : read_tprs_step m (some s, none, res) l
                  = (some s, none, res) := by
                simp [read_tprs_step, h1, h2, h3, truthy]
              rw [hstep]
              simp only [claimTprsPairs]
              exact ih _ _ _ hrest hcs hcq
          · have hnone : cs = none := by
              cases cs with
              | none => rfl
              | some s => exact absurd (truthy_iff (some s) hcs ▸ rfl) h4
            subst hnone
            have hstep : read_tprs_step m (none, cq, res) l = (none, cq, res) := by
              simp [read_tprs_step, h1, h2, h3, truthy]
            rw [hstep]
            cases cq with
            | none =>
              simp only [claimTprsPairs]
              exact ih _ _ _ hrest hcs hcq
            | some q =>
              simp only [claimTprsPairs]
              exact ih _ _ _ hrest hcs hcq
        · have hcls : classifyTprsLine m l = .other := by
            simp [classifyTprsLine, h1, h2, h3]
          have hstep : read_tprs_step m (cs, cq, res) l = (cs, cq, res) := by
            simp [read_tprs_step, h1, h2, h3]
          rw [hstep, hcls]
          simp only [claimTprsPairs]
          exact ih _ _ _ hrest hcs hcq

/-- C9: for every TPRS day block whose marker lines carry non-empty
contents, the Q&A mapping built by `read_tprs_day_block` is exactly the
claim's association discipline: each recorded pair goes to the most recently
seen sentence line, question/answer lines before any sentence line are
ignored, an answer with no pending question is ignored, a question is
consumed by the first answer after it, and each sentence's pairs appear in
document order (grouped by sentence with `defaultdict` semantics). -/
theorem read_tprs_day_block_qa_eq_claim (m : TprsMarkers) (day_block : Str)
    (h : ∀ l ∈ splitLines day_block, tprsContentOk m l = true) :
    read_tprs_day_block_qa m day_block =
      (claimTprsPairs none none
          ((splitLines day_block).map (classifyTprsLine m))).foldl
        (fun acc p => dictAppend p.1 p.2 acc) [] := by
  exact tprs_loop_eq_claim m (splitLines day_block) none none [] h
    (fun s hs => by cases hs) (fun q hq => by cases hq)

/-- Witness for `read_tprs_day_block_qa_eq_claim` on a concrete block with
markers «S» / «Q» / «A»: lines S x, Q y, A z, Q w, A v give the mapping
x ↦ [(y, z), (w, v)]. -/
theorem read_tprs_day_block_qa_eq_claim_witness :
    (∀ l ∈ splitLines
        [('S' : Char), ' ', 'x', '\n', 'Q', ' ', 'y', '\n', 'A', ' ', 'z', '\n',
         'Q', ' ', 'w', '\n', 'A', ' ', 'v'],
      tprsContentOk ⟨[('S' : Char)], [('Q' : Char)], [('A' : Char)]⟩ l = true) ∧
    read_tprs_day_block_qa ⟨[('S' : Char)], [('Q' : Char)], [('A' : Char)]⟩
        [('S' : Char), ' ', 'x', '\n', 'Q', ' ', 'y', '\n', 'A', ' ', 'z', '\n',
         'Q', ' ', 'w', '\n', 'A', ' ', 'v']
      = [([('x' : Char)],
          [([('y' : Char)], [('z' : Char)]), ([('w' : Char)], [('v' : Char)])])] := by
  have hyp : ∀ l ∈ splitLines
      [('S' : Char), ' ', 'x', '\n', 'Q', ' ', 'y', '\n', 'A', ' ', 'z', '\n',
       'Q', ' ', 'w', '\n', 'A', ' ', 'v'],
      tprsContentOk ⟨[('S' : Char)], [('Q' : Char)], [('A' : Char)]⟩ l = true := by
    decide
  refine ⟨hyp, ?_⟩
  rw [read_tprs_day_block_qa_eq_claim
    ⟨[('S' : Char)], [('Q' : Char)], [('A' : Char)]⟩
    [('S' : Char), ' ', 'x', '\n', 'Q', ' ', 'y', '\n', 'A', ' ', 'z', '\n',
     'Q', ' ', 'w', '\n', 'A', ' ', 'v'] hyp]
  decide

/-- C9 counterexample: on the block `S` / `Q y` / `A z`, whose sentence
marker line carries empty content, the loop stores the empty string as the
current sentence; it is falsy in Python, so the following question and
answer lines fall through the guards and no pair is recorded — while the
claimed most-recently-seen-sentence discipline records the pair under that
(empty) sentence. -/
theorem read_tprs_empty_sentence_cex :
    read_tprs_day_block_qa ⟨[('S' : Char)], [('Q' : Char)], [('A' : Char)]⟩
        [('S' : Char), '\n', 'Q', ' ', 'y', '\n', 'A', ' ', 'z'] = []
    ∧ (claimTprsPairs none none
        ((splitLines [('S' : Char), '\n', 'Q', ' ', 'y', '\n', 'A', ' ', 'z']).map
          (classifyTprsLine ⟨[('S' : Char)], [('Q' : Char)], [('A' : Char)]⟩))).foldl
        (fun acc p => dictAppend p.1 p.2 acc) []
      = [([], [([('y' : Char)], [('z' : Char)])])]
    ∧ ([] : List (Str × Qa)) ≠ [([], [([('y' : Char)], [('z' : Char)])])] := by
  refine ⟨by decide, by decide, by decide⟩

/-! ## Unique id generation (claim C10)

Embedding of `DiaryHandler.generate_unique_id` (`diary.py` lines 444-464; an
identical module-level copy lives in `lingoanki/__main__.py` and is what the
unit test imports): SHA-256 of the UTF-8 encoding of the input, hexdigest
read as an integer (which is the digest as a big-endian number), reduced
modulo `10 ** length`.  SHA-256 itself (FIPS 180-4) is implemented here on
`Nat` with explicit reduction modulo `2 ^ 32`. -/

/-- Word mask `2 ^ 32`. -/
def w32 : Nat := 4294967296

/-- Rotate a 32-bit word right by `n`. -/
def rotr (n x : Nat) : Nat := ((x >>> n) ||| (x <<< (32 - n))) % w32

/-- Bitwise complement on 32-bit words. -/
def not32 (x : Nat) : Nat := x ^^^ (w32 - 1)

/-- SHA-256 choice function. -/
def shaCh (x y z : Nat) : Nat := (x &&& y) ^^^ (not32 x &&& z)

/-- SHA-256 majority function. -/
def shaMaj (x y z : Nat) : Nat := (x &&& y) ^^^ (x &&& z) ^^^ (y &&& z)

/-- SHA-256 big sigma 0. -/
def bsig0 (x : Nat) : Nat := rotr 2 x ^^^ rotr 13 x ^^^ rotr 22 x

/-- SHA-256 big sigma 1. -/
def bsig1 (x : Nat) : Nat := rotr 6 x ^^^ rotr 11 x ^^^ rotr 25 x

/-- SHA-256 small sigma 0. -/
def ssig0 (x : Nat) : Nat := rotr 7 x ^^^ rotr 18 x ^^^ (x >>> 3)

/-- SHA-256 small sigma 1. -/
def ssig1 (x : Nat) : Nat := rotr 17 x ^^^ rotr 19 x ^^^ (x >>> 10)

/-- SHA-256 round constants. -/
def shaK : List Nat :=
  [1116352408, 1899447441, 3049323471, 3921009573, 961987163, 1508970993,
   2453635748, 2870763221, 3624381080, 310598401, 607225278, 1426881987,
   1925078388, 2162078206, 2614888103, 3248222580, 3835390401, 4022224774,
   264347078, 604807628, 770255983, 1249150122, 1555081692, 1996064986,
   2554220882, 2821834349, 2952996808, 3210313671, 3336571891, 3584528711,
   113926993, 338241895, 666307205, 773529912, 1294757372, 1396182291,
   1695183700, 1986661051, 2177026350, 2456956037, 2730485921, 2820302411,
   3259730800, 3345764771, 3516065817, 3600352804, 4094571909, 275423344,
   430227734, 506948616, 659060556, 883997877, 958139571, 1322822218,
   1537002063, 1747873779, 1955562222, 2024104815, 2227730452, 2361852424,
   2428436474, 2756734187, 3204031479, 3329325298]

/-- SHA-256 initial hash value. -/
def shaH0 : List Nat :=
  [1779033703, 3144134277, 1013904242, 2773480762,
   1359893119, 2600822924, 528734635, 1541459225]

/-- Extend the 16-word message schedule by one word. -/
def scheduleStep (w : List Nat) : List Nat :=
  w ++ [(ssig1 (w.getD (w.length - 2) 0) + w.getD (w.length - 7) 0 +
          ssig0 (w.getD (w.length - 15) 0) + w.getD (w.length - 16) 0) % w32]

/-- Full 64-word message schedule from a 16-word block. -/
def fullSchedule (block : List Nat) : List Nat :=
  (List.range 48).foldl (fun w _ => scheduleStep w) block

/-- One SHA-256 compression round on the eight-word working state. -/
def compressStep (st : Nat × Nat × Nat × Nat × Nat × Nat × Nat × Nat)
    (kw : Nat × Nat) : Nat × Nat × Nat × Nat × Nat × Nat × Nat × Nat :=
  match st with
  | (a, b, c, d, e, f, g, h) =>
    let t1 := (h + bsig1 e + shaCh e f g + kw.1 + kw.2) % w32
    let t2 := (bsig0 a + shaMaj a b c) % w32
    ((t1 + t2) % w32, a, b, c, (d + t1) % w32, e, f, g)

/-- Process one 16-word block into the running hash value. -/
def processBlock (h : List Nat) (block : List Nat) : List Nat :=
  let w := fullSchedule block
  let st := (shaK.zip w).foldl compressStep
    (h.getD 0 0, h.getD 1 0, h.getD 2 0, h.getD 3 0,
     h.getD 4 0, h.getD 5 0, h.getD 6 0, h.getD 7 0)
  match st with
  | (a, b, c, d, e, f, g, hh) =>
    [(h.getD 0 0 + a) % w32, (h.getD 1 0 + b) % w32, (h.getD 2 0 + c) % w32,
     (h.getD 3 0 + d) % w32, (h.getD 4 0 + e) % w32, (h.getD 5 0 + f) % w32,
     (h.getD 6 0 + g) % w32, (h.getD 7 0 + hh) % w32]

/-- Big-endian bytes of the 64-bit message bit length. -/
def lenBytes (n : Nat) : List Nat :=
  (List.range 8).map (fun i => (n >>> (8 * (7 - i))) % 256)

/-- SHA-256 padding: `0x80`, zeros to 56 mod 64, then the bit length. -/
def padMsg (bytes : List Nat) : List Nat :=
  let l := bytes.length
  bytes ++ [0x80] ++ List.replicate ((119 - l % 64) % 64) 0 ++ lenBytes (l * 8)

/-- Group bytes into big-endian 32-bit words. -/
def bytesToWords : List Nat → List Nat
  | b0 :: b1 :: b2 :: b3 :: rest =>
    (((b0 * 256 + b1) * 256 + b2) * 256 + b3) :: bytesToWords rest
  | _ => []

/-- Split a word list into 16-word blocks (fuelled so that the definition
reduces by structural recursion; the fuel `ws.length` always suffices). -/
def chunks16Go : Nat → List Nat → List (List Nat)
  | 0, _ => []
  | _, [] => []
  | fuel + 1, w :: ws => (w :: ws).take 16 :: chunks16Go fuel ((w :: ws).drop 16)

/-- Split a word list into 16-word blocks. -/
def chunks16 (ws : List Nat) : List (List Nat) := chunks16Go ws.length ws

/-- SHA-256 digest of a byte string, read as a big-endian natural number;
this equals Python `int(hashlib.sha256(bytes).hexdigest(), 16)`. -/
def sha256Nat (bytes : List Nat) : Nat :=
  ((chunks16 (bytesToWords (padMsg bytes))).foldl processBlock shaH0).foldl
    (fun acc h => acc * w32 + h) 0

/-- UTF-8 encoding of one character (Python `str.encode("utf-8")`). -/
def utf8Char (c : Char) : List Nat :=
  let n := c.toNat
  if n < 0x80 then [n]
  else if n < 0x800 then [0xc0 ||| (n >>> 6), 0x80 ||| (n &&& 0x3f)]
  else if n < 0x10000 then
    [0xe0 ||| (n >>> 12), 0x80 ||| ((n >>> 6) &&& 0x3f), 0x80 ||| (n &&& 0x3f)]
  else
    [0xf0 ||| (n >>> 18), 0x80 ||| ((n >>> 12) &&& 0x3f),
     0x80 ||| ((n >>> 6) &&& 0x3f), 0x80 ||| (n &&& 0x3f)]

/-- UTF-8 encoding of a string. -/
def utf8Encode (s : Str) : List Nat := (s.map utf8Char).flatten

/-- Embeds `generate_unique_id`: SHA-256 of the UTF-8 encoded input string,
hexdigest parsed as an integer, reduced modulo `10 ** length`. -/
def generate_unique_id (input_string : Str) (length : Nat) : Nat :=
  sha256Nat (utf8Encode input_string) % 10 ^ length

/-- C10: `generate_unique_id` is the SHA-256 digest of the UTF-8 encoding
reduced modulo `10 ^ n`, hence deterministic and always below `10 ^ n`; it
agrees with the unit test's pinned value for `"test_string"` at the default
length 9, yet is not guaranteed to have exactly `n` decimal digits: at the
default length the input `"6"` yields 15414403, which has only 8 digits. -/
theorem generate_unique_id_spec :
    (∀ s n, generate_unique_id s n =
      sha256Nat (utf8Encode s) % 10 ^ n ∧ generate_unique_id s n < 10 ^ n) ∧
    generate_unique_id
        [('t' : Char), 'e', 's', 't', '_', 's', 't', 'r', 'i', 'n', 'g'] 9
      = 723598865 ∧
    (generate_unique_id [('6' : Char)] 9 = 15414403 ∧ 15414403 < 10 ^ 8) := by
  refine ⟨fun s n => ⟨rfl, ?_⟩, ?_, ?_, by norm_num⟩
  · exact Nat.mod_lt _ (Nat.pos_pow_of_pos n (by norm_num))
  · decide
  · decide

/-! ## Diary writer and parser (claims C2, C4, C5, C7)

Embedding of the diary text pipeline of `DiaryHandler`:
`clean_joplin_markdown` (lines 479-500), `extract_dates_from_md` (711-731),
`get_title_for_date` (733-769), `get_text_for_date` (771-809),
`get_all_days_title` (959-1008), `write_diary` (1010-1057, main file part)
and `markdown_diary_to_dict` (1095-1155).

The entry regex
`-\s*\*\*(.*?)\*\*.*?{trial}\s*(.*?)\s*{answer}\s*(.*?)\s*{tips}\s*(.*?)\s*(?=-|\Z)`
(compiled with `re.DOTALL | re.MULTILINE` and scanned with `re.findall`) is
embedded by `matchEntryAt` / `findEntries`: a lazy group followed by a
literal is a first-occurrence split, `\s*` before a literal or a lookahead
is a maximal whitespace run, and the final lazy group stops at the first
position from which optional whitespace reaches a `-` or the end of input.
On inputs where the first viable choice of every lazy group extends to a
full match (all inputs of the theorems below) this equals `re.findall`. -/

/-- Marker strings of `config["template_diary"]`. -/
structure DiaryMarkers where
  trial : Str
  answer : Str
  tips : Str
deriving DecidableEq

/-- One parsed day of `markdown_diary_to_dict`: the date key, the title
value (absent, or generated/extracted) and the ordered sentence entries. -/
structure DiaryDay where
  date : Str
  title : Option Str
  entries : List DiaryEntry
deriving DecidableEq

/-- Bullet line written by `write_diary` for one entry. -/
def bulletL (e : DiaryEntry) : Str := ['-', ' ', '*', '*'] ++ e.primary ++ ['*', '*']

/-- Trial marker line written by `write_diary`. -/
def trialLn (m : DiaryMarkers) (e : DiaryEntry) : Str :=
  [' ', ' '] ++ m.trial ++ [' '] ++ e.trial

/-- Answer marker line written by `write_diary`. -/
def answerLn (m : DiaryMarkers) (e : DiaryEntry) : Str :=
  [' ', ' '] ++ m.answer ++ [' '] ++ e.study

/-- Tips marker line written by `write_diary`. -/
def tipsLn (m : DiaryMarkers) (e : DiaryEntry) : Str :=
  [' ', ' '] ++ m.tips ++ [' '] ++ e.tips

/-- Lines written by `write_diary` for one entry: the bullet line, the three
marker lines, and the blank line from the final `\n\n`. -/
def entryLines (m : DiaryMarkers) (e : DiaryEntry) : List Str :=
  [bulletL e, trialLn m e, answerLn m e, tipsLn m e, []]

/-- Header line written by `write_diary`: a bare date when the title (after
the `None` → `""` replacement) is empty, otherwise `## date: title`, each
with a trailing space before the newline. -/
def headerLine (d : DiaryDay) : Str :=
  match d.title with
  | some t =>
    if t = [] then ['#', '#', ' '] ++ d.date ++ [' ']
    else ['#', '#', ' '] ++ d.date ++ [':', ' '] ++ t ++ [' ']
  | none => ['#', '#', ' '] ++ d.date ++ [' ']

/-- Lines written by `write_diary` for one day. -/
def dayLines (m : DiaryMarkers) (d : DiaryDay) : List Str :=
  headerLine d :: (d.entries.map (entryLines m)).flatten

/-- Join newline-terminated lines into the written character stream. -/
def unlines (ls : List Str) : Str := (ls.map (fun l => l ++ ['\n'])).flatten

/-- Embeds the main-file emission of `DiaryHandler.write_diary` (the per-day
`DAILY_AUDIO` copies are a second emission of the same shape and are not
modelled separately).  The day titles are those of the `DiaryDay` values,
which is what `write_diary` obtains from `get_all_days_title` and its
`None` → `""` replacement. -/
def write_diary (m : DiaryMarkers) (days : List DiaryDay) : Str :=
  unlines ((days.map (dayLines m)).flatten)

/-- Shape test for the regex fragment `(\d{4}/\d{2}/\d{2})`. -/
def dateShape (s : Str) : Bool :=
  match s with
  | [a, b, c, d, s1, e, f, s2, g, h] =>
    a.isDigit && b.isDigit && c.isDigit && d.isDigit && (s1 == '/') &&
      e.isDigit && f.isDigit && (s2 == '/') && g.isDigit && h.isDigit
  | _ => false

/-- Applies `re.match(r"^## (\d{4}/\d{2}/\d{2})(.*)", line)`: the date
capture and the rest of the line. -/
def headerParse (line : Str) : Option (Str × Str) :=
  if line.take 3 = ['#', '#', ' '] then
    if dateShape ((line.drop 3).take 10) then
      some ((line.drop 3).take 10, line.drop 13)
    else none
  else none

/-- Applies `r"^##\s(\d{4}/\d{2}/\d{2})"` (the `extract_dates_from_md`
variant, whose third character is any whitespace) to one line. -/
def extractDateOfLine (line : Str) : Option Str :=
  if line.take 2 = ['#', '#'] then
    match line.drop 2 with
    | c :: rest =>
      if isWs c then
        if dateShape (rest.take 10) then some (rest.take 10) else none
      else none
    | [] => none
  else none

/-- The needle of the Joplin-metadata pattern `id:\s+[a-z0-9]+.*`. -/
def idColon : Str := ['i', 'd', ':']

/-- Character class `[a-z0-9]`. -/
def isLowerAlnum (c : Char) : Bool := (('a' ≤ c) && (c ≤ 'z')) || c.isDigit

/-- Test whether the Joplin pattern `id:\s+[a-z0-9]+.*` matches at the head
of `s`. -/
def joplinAt (s : Str) : Bool :=
  leadsWith idColon s &&
    (!((s.drop 3).takeWhile isWs).isEmpty) &&
    (match ((s.drop 3).dropWhile isWs).head? with
     | some c => isLowerAlnum c
     | none => false)

/-- Text before the first Joplin-pattern match (`re.split(..., maxsplit=1)[0]`). -/
def joplinCut : Str → Str
  | [] => []
  | c :: rest => if joplinAt (c :: rest) then [] else c :: joplinCut rest

/-- Embeds `DiaryHandler.clean_joplin_markdown`. -/
def clean_joplin_markdown (content : Str) : Str := trim (joplinCut content)

/-- Embeds `DiaryHandler.extract_dates_from_md` on the file content (the
file read applies `clean_joplin_markdown`); dates stay in their textual
`YYYY/MM/DD` form. -/
def extract_dates_from_md (rawText : Str) : List Str :=
  (splitLines (clean_joplin_markdown rawText)).filterMap extractDateOfLine

/-- Line scan of `get_title_for_date`: on the target date's header, a colon
in the rest of the line yields the rest with all colons removed and
stripped; otherwise the scan continues. -/
def titleScan (target : Str) : List Str → Option Str
  | [] => none
  | l :: rest =>
    match headerParse l with
    | some dr =>
      if dr.1 = target then
        if dr.2.contains ':' then
          some (trim (dr.2.filter (fun c => !(c == ':'))))
        else titleScan target rest
      else titleScan target rest
    | none => titleScan target rest

/-- Embeds `DiaryHandler.get_title_for_date`. -/
def get_title_for_date (text : Str) (target : Str) : Option Str :=
  titleScan target (splitLines text)

/-- Capture phase of `get_text_for_date`: collect lines until the next
header with a different date (a repeated header of the same date is skipped
and capture continues, as in the source). -/
def collectAfter (target : Str) : List Str → List Str
  | [] => []
  | l :: rest =>
    match headerParse l with
    | some dr => if dr.1 = target then collectAfter target rest else []
    | none => l :: collectAfter target rest

/-- Scan phase of `get_text_for_date`: skip lines until the target date's
header. -/
def getTextLines (target : Str) : List Str → List Str
  | [] => []
  | l :: rest =>
    match headerParse l with
    | some dr =>
      if dr.1 = target then collectAfter target rest else getTextLines target rest
    | none => getTextLines target rest

/-- Python `"\n".join`. -/
def joinNl : List Str → Str
  | [] => []
  | l :: rest => l ++ (rest.map (fun x => '\n' :: x)).flatten

/-- Embeds `DiaryHandler.get_text_for_date` (on already-cleaned text). -/
def get_text_for_date (text : Str) (target : Str) : Str :=
  trim (joinNl (getTextLines target (splitLines text)))

/-- Final lazy group of the entry regex, `\s*(.*?)\s*(?=-|\Z)`: after the
greedy leading whitespace, the capture stops at the first position from
which optional whitespace reaches a `-` or the end; the match consumes that
whitespace (the lookahead itself is zero-width). -/
def scanTipsGo : Str → Str × Str
  | [] => ([], [])
  | c :: rest =>
    let ys := (c :: rest).dropWhile isWs
    if ys.isEmpty || (ys.head? == some '-') then ([], ys)
    else
      let p := scanTipsGo rest
      (c :: p.1, p.2)

/-- Final lazy group with its greedy leading `\s*`. -/
def scanTips (s : Str) : Str × Str := scanTipsGo (s.dropWhile isWs)

/-- Python `str.startswith` consumption: drop a literal prefix or fail. -/
def dropLead (needle : Str) (s : Str) : Option Str :=
  if leadsWith needle s then some (s.drop needle.length) else none

/-- One attempt of the entry regex at the head of `s`: literal `-`, greedy
`\s*`, literal `**`, lazy capture to the next `**`, lazy gap to the trial
marker, then for the trial and answer fields a first-occurrence split on the
next marker whose capture drops the surrounding whitespace (`\s*(.*?)\s*`),
and finally the tips group.  Returns the four captures and the rest of the
input after the match. -/
def matchEntryAt (m : DiaryMarkers) : Str → Option ((Str × Str × Str × Str) × Str)
  | [] => none
  | c :: s0 =>
    if c = '-' then
      (dropLead ['*', '*'] (s0.dropWhile isWs)).bind fun s2 =>
      (splitFirst ['*', '*'] s2).bind fun pr =>
      (splitFirst m.trial pr.2).bind fun qr =>
      (splitFirst m.answer qr.2).bind fun tr =>
      (splitFirst m.tips tr.2).bind fun ar =>
      some ((pr.1, trim tr.1, trim ar.1, (scanTips ar.2).1), (scanTips ar.2).2)
    else none

/-- Scan loop of `re.findall` for the entry regex: try each start position
left to right, resuming after the end of each match.  Fuelled by the input
length so that the definition reduces by structural recursion. -/
def findEntriesGo (m : DiaryMarkers) : Nat → Str → List (Str × Str × Str × Str)
  | 0, _ => []
  | _, [] => []
  | fuel + 1, c :: rest =>
    match matchEntryAt m (c :: rest) with
    | some er => er.1 :: findEntriesGo m fuel er.2
    | none => findEntriesGo m fuel rest

/-- Embeds `re.findall(pattern, day_block, re.DOTALL | re.MULTILINE)` for
the entry pattern of `markdown_diary_to_dict`. -/
def findEntries (m : DiaryMarkers) (s : Str) : List (Str × Str × Str × Str) :=
  findEntriesGo m s.length s

/-- Python `str.replace(needle, "")`, fuelled for structural recursion. -/
def removeAllGo (needle : Str) : Nat → Str → Str
  | 0, s => s
  | _, [] => []
  | fuel + 1, c :: rest =>
    if leadsWith needle (c :: rest) && !needle.isEmpty then
      removeAllGo needle fuel ((c :: rest).drop needle.length)
    else c :: removeAllGo needle fuel rest

/-- Python `str.replace(needle, "")`. -/
def removeAll (needle s : Str) : Str := removeAllGo needle s.length s

/-- Build one sentence dict from a regex match, as `markdown_diary_to_dict`
does: every capture is stripped, and `**` is removed from the primary
sentence. -/
def parseEntryTuple (t : Str × Str × Str × Str) : DiaryEntry :=
  { primary := trim (removeAll ['*', '*'] t.1), trial := trim t.2.1,
    study := trim t.2.2.1, tips := trim t.2.2.2 }

/-- Global completeness test of `get_all_days_title`: no entry anywhere in
the diary has a falsy (empty) `study_language_sentence`. -/
def globallyComplete (dd : List (Str × List DiaryEntry)) : Bool :=
  dd.all (fun p => p.2.all (fun e => !e.study.isEmpty))

/-- Embeds `DiaryHandler.get_all_days_title`.  `newDiary` is `self.new_diary`
(the diary file did not exist); `genTitle` is the `openai_create_day_title`
collaborator; `allText` is `self.all_diary_text`; `dd` is the parsed
`diary_dict` (date → sentences).  For an existing diary, a date whose header
carries no title gets a generated title only when every entry of every day
is complete, and stays `None` otherwise. -/
def get_all_days_title (newDiary : Bool) (genTitle : List DiaryEntry → Str)
    (allText : Str) (dd : List (Str × List DiaryEntry)) :
    List (Str × Option Str) :=
  if newDiary then dd.map (fun p => (p.1, some (genTitle p.2)))
  else
    dd.map (fun p =>
      (p.1,
        match get_title_for_date allText p.1 with
        | some t => some t
        | none => if globallyComplete dd then some (genTitle p.2) else none))

/-- Embeds `DiaryHandler.markdown_diary_to_dict` for an existing diary file
(`self.new_diary = False`): clean the raw file content, extract the dates,
slice the text per date, run the entry regex, keep only dates with at least
one match (the source creates `diary_dict[date]` inside the entry loop),
attach titles, and finally write `diary_dict[date]["title"]` for every
extracted date — which in Python raises `KeyError` (here `Except.error`)
when a date produced no entries. -/
def markdown_diary_to_dict (m : DiaryMarkers) (genTitle : List DiaryEntry → Str)
    (rawText : Str) : Except Unit (List DiaryDay) :=
  let text := clean_joplin_markdown rawText
  let dates := extract_dates_from_md rawText
  let dd := dates.foldl
    (fun acc date =>
      let block := get_text_for_date text date
      let es := (findEntries m block).map parseEntryTuple
      if es.isEmpty then acc else dictSet date es acc)
    []
  let titles := get_all_days_title false genTitle text dd
  if dates.all (fun date => (dictGet date dd).isSome) then
    .ok (dd.map (fun p =>
      { date := p.1, title := (dictGet p.1 titles).getD none, entries := p.2 }))
  else .error ()

/-! ### String lemmas: prefixes, first occurrences, trimming -/

theorem leadsWith_iff (n s : Str) : leadsWith n s = true ↔ ∃ t, s = n ++ t := by
  induction n generalizing s with
  | nil => simp [leadsWith]
  | cons a as ih =>
    cases s with
    | nil =>
      simp only [leadsWith, List.cons_append]
      constructor
      · intro h; exact absurd h (by simp)
      · rintro ⟨t, ht⟩; cases ht
    | cons b bs =>
      simp only [leadsWith, Bool.and_eq_true, beq_iff_eq, ih, List.cons_append]
      constructor
      · rintro ⟨rfl, t, rfl⟩; exact ⟨t, rfl⟩
      · rintro ⟨t, ht⟩
        injection ht with h1 h2
        exact ⟨h1.symm, t, h2⟩

theorem leadsWith_self_append (n t : Str) : leadsWith n (n ++ t) = true :=
  (leadsWith_iff n (n ++ t)).mpr ⟨t, rfl⟩

theorem leadsWith_nil_false (n : Str) (hn : n ≠ []) : leadsWith n [] = false := by
  cases n with
  | nil => exact absurd rfl hn
  | cons a as => rfl

theorem leadsWith_head_ne (n : Str) (c0 : Char) (h0 : n.head? = some c0)
    (c : Char) (r : Str) (hc : c0 ≠ c) : leadsWith n (c :: r) = false := by
  cases n with
  | nil => cases h0
  | cons a as =>
    injection h0 with h0
    subst h0
    simp [leadsWith, hc]

theorem splitFirst_cons_of_false (n : Str) (c : Char) (rest : Str)
    (h : leadsWith n (c :: rest) = false) :
    splitFirst n (c :: rest)
      = (splitFirst n rest).map (fun p => (c :: p.1, p.2)) := by
  simp only [splitFirst, h, Bool.false_eq_true, if_false]
  cases splitFirst n rest with
  | none => rfl
  | some p => cases p; rfl

theorem splitFirst_append (n u v : Str)
    (h : ∀ i, i < u.length → leadsWith n ((u ++ (n ++ v)).drop i) = false) :
    splitFirst n (u ++ (n ++ v)) = some (u, v) := by
  induction u with
  | nil =>
    simp only [List.nil_append]
    cases hnv : n ++ v with
    | nil =>
      rcases List.append_eq_nil.mp hnv with ⟨rfl, rfl⟩
      simp [splitFirst]
    | cons c rest =>
      have hlw : leadsWith n (c :: rest) = true := hnv ▸ leadsWith_self_append n v
      have hdrop : (c :: rest).drop n.length = v := by
        rw [← hnv, List.drop_append_of_le_length (le_refl n.length)]
        simp
      simp only [splitFirst, hlw, if_true, hdrop]
  | cons c u2 ih =>
    have h0 := h 0 (by simp)
    simp only [List.drop_zero, List.cons_append] at h0
    have hrec := ih (fun i hi => by
      have := h (i + 1) (by simp; omega)
      simpa using this)
    rw [List.cons_append, splitFirst_cons_of_false n c _ h0, hrec]
    rfl

theorem mem_of_mem_drop {α : Type} {l : List α} {i : Nat} {c : α}
    (h : c ∈ l.drop i) : c ∈ l := by
  induction i generalizing l with
  | zero => simpa using h
  | succ k ih =>
    cases l with
    | nil => simpa using h
    | cons a as => exact List.mem_cons_of_mem _ (ih (by simpa using h))

theorem no_occ_head (n u w : Str) (c0 : Char) (hhead : n.head? = some c0)
    (hc : c0 ∉ u) : ∀ i, i < u.length → leadsWith n ((u ++ w).drop i) = false := by
  intro i hi
  by_contra hlw
  have hlw2 : leadsWith n ((u ++ w).drop i) = true := by
    cases hb : leadsWith n ((u ++ w).drop i) with
    | false => exact absurd hb hlw
    | true => rfl
  obtain ⟨t, ht⟩ := (leadsWith_iff _ _).mp hlw2
  have hdrop : (u ++ w).drop i = u.drop i ++ w := List.drop_append_of_le_length hi.le
  have hne : u.drop i ≠ [] := by
    intro hnil
    have := List.drop_eq_nil_iff.mp hnil
    omega
  cases hd : u.drop i with
  | nil => exact hne hd
  | cons a as =>
    rw [hdrop, hd] at ht
    cases n with
    | nil => cases hhead
    | cons b bs =>
      injection hhead with hb0
      subst hb0
      simp only [List.cons_append] at ht
      injection ht with h1 h2
      apply hc
      apply @mem_of_mem_drop _ _ i _
      rw [hd, h1]
      exact List.mem_cons_self _ _

theorem no_occ_barrier (n u v : Str) (κ β : Char) (hκn : κ ∈ n) (hκu : κ ∉ u)
    (hv : v.head? = some β) (hβ : β ∉ n) :
    ∀ i, i < u.length → leadsWith n ((u ++ v).drop i) = false := by
  intro i hi
  by_contra hlw
  have hlw2 : leadsWith n ((u ++ v).drop i) = true := by
    cases hb : leadsWith n ((u ++ v).drop i) with
    | false => exact absurd hb hlw
    | true => rfl
  obtain ⟨t, ht⟩ := (leadsWith_iff _ _).mp hlw2
  have hdrop : (u ++ v).drop i = u.drop i ++ v := List.drop_append_of_le_length hi.le
  rw [hdrop] at ht
  by_cases hlen : n.length ≤ (u.drop i).length
  · have htake : (u.drop i ++ v).take n.length = (u.drop i).take n.length :=
      List.take_append_of_le_length hlen
    have htake2 : (u.drop i ++ v).take n.length = n := by
      rw [ht, List.take_append_of_le_length (le_refl n.length), List.take_length]
    apply hκu
    apply @mem_of_mem_drop _ _ i _
    exact List.mem_of_mem_take (htake ▸ htake2 ▸ hκn)
  · push_neg at hlen
    have hvne : v ≠ [] := by
      intro hnil
      subst hnil
      have : (u.drop i).length = n.length + t.length := by
        have := congrArg List.length ht
        simpa using this
      omega
    have htake2 : (u.drop i ++ v).take n.length = n := by
      rw [ht, List.take_append_of_le_length (le_refl n.length), List.take_length]
    have htake3 : (u.drop i ++ v).take n.length
        = u.drop i ++ v.take (n.length - (u.drop i).length) := by
      rw [List.take_append_eq_append_take, List.take_of_length_le (le_of_lt hlen)]
    have hβmem : β ∈ n := by
      rw [← htake2, htake3]
      apply List.mem_append_right
      cases v with
      | nil => exact absurd rfl hvne
      | cons b bs =>
        injection hv with hv
        subst hv
        cases hk : n.length - (u.drop i).length with
        | zero => omega
        | succ k => simp [List.take]
    exact hβ hβmem

/-- No occurrence of `n` anywhere in `s`. -/
def NoOccur (n s : Str) : Prop := ∀ i, leadsWith n (s.drop i) = false

theorem noOccur_of_char (n s : Str) (κ : Char) (hκn : κ ∈ n) (hκs : κ ∉ s) :
    NoOccur n s := by
  intro i
  cases hb : leadsWith n (s.drop i) with
  | false => rfl
  | true =>
    obtain ⟨t, ht⟩ := (leadsWith_iff _ _).mp hb
    exact absurd (mem_of_mem_drop (ht ▸ List.mem_append_left t hκn)) hκs

theorem no_occ_nosub_barrier (n u v : Str) (β : Char) (hsub : NoOccur n u)
    (hv : v.head? = some β) (hβ : β ∉ n) :
    ∀ i, i < u.length → leadsWith n ((u ++ v).drop i) = false := by
  intro i hi
  by_contra hlw
  have hlw2 : leadsWith n ((u ++ v).drop i) = true := by
    cases hb : leadsWith n ((u ++ v).drop i) with
    | false => exact absurd hb hlw
    | true => rfl
  obtain ⟨t, ht⟩ := (leadsWith_iff _ _).mp hlw2
  have hdrop : (u ++ v).drop i = u.drop i ++ v := List.drop_append_of_le_length hi.le
  rw [hdrop] at ht
  by_cases hlen : n.length ≤ (u.drop i).length
  · have htake : (u.drop i).take n.length = n := by
      have h1 : (u.drop i ++ v).take n.length = (u.drop i).take n.length :=
        List.take_append_of_le_length hlen
      have h2 : (u.drop i ++ v).take n.length = n := by
        rw [ht, List.take_append_of_le_length (le_refl n.length), List.take_length]
      rw [← h1, h2]
    have : leadsWith n (u.drop i) = true := by
      apply (leadsWith_iff _ _).mpr
      exact ⟨(u.drop i).drop n.length, by
        conv_lhs => rw [← List.take_append_drop n.length (u.drop i)]
        rw [htake]⟩
    rw [hsub i] at this
    cases this
  · push_neg at hlen
    have hvne : v ≠ [] := by
      intro hnil
      subst hnil
      have : (u.drop i).length = n.length + t.length := by
        have := congrArg List.length ht
        simpa using this
      omega
    have htake2 : (u.drop i ++ v).take n.length = n := by
      rw [ht, List.take_append_of_le_length (le_refl n.length), List.take_length]
    have htake3 : (u.drop i ++ v).take n.length
        = u.drop i ++ v.take (n.length - (u.drop i).length) := by
      rw [List.take_append_eq_append_take, List.take_of_length_le (le_of_lt hlen)]
    have hβmem : β ∈ n := by
      rw [← htake2, htake3]
      apply List.mem_append_right
      cases v with
      | nil => exact absurd rfl hvne
      | cons b bs =>
        injection hv with hv
        subst hv
        cases hk : n.length - (u.drop i).length with
        | zero => omega
        | succ k => simp [List.take]
    exact hβ hβmem

theorem noOccur_nil (n : Str) (hn : n ≠ []) : NoOccur n [] := by
  intro i
  simp only [List.drop_nil]
  exact leadsWith_nil_false n hn

theorem noOccur_append (n u v : Str)
    (h1 : ∀ i, i < u.length → leadsWith n ((u ++ v).drop i) = false)
    (h2 : NoOccur n v) : NoOccur n (u ++ v) := by
  intro i
  by_cases hi : i < u.length
  · exact h1 i hi
  · push_neg at hi
    rw [List.drop_append_eq_append_drop, List.drop_eq_nil_of_le hi, List.nil_append]
    exact h2 (i - u.length)

/-- Decidable trimmedness: the first and last characters, when present, are
not whitespace (equivalently, `strip` is the identity). -/
def trimmedB (x : Str) : Bool :=
  (match x.head? with | some c => !isWs c | none => true) &&
  (match x.getLast? with | some c => !isWs c | none => true)

theorem trimLeft_of_trimmedB (x : Str) (h : trimmedB x = true) : trimLeft x = x := by
  cases x with
  | nil => rfl
  | cons c r =>
    simp only [trimmedB, List.head?_cons, Bool.and_eq_true] at h
    have : isWs c = false := by
      cases hw : isWs c
      · rfl
      · rw [hw] at h; exact absurd h.1 (by simp)
    simp [trimLeft, List.dropWhile_cons, this]

theorem trimRight_of_trimmedB (x : Str) (h : trimmedB x = true) : trimRight x = x := by
  rw [trimRight]
  cases hx : x.reverse with
  | nil =>
    have : x = [] := by simpa using congrArg List.reverse hx
    simp [this]
  | cons c r =>
    have hget : x.getLast? = some c := by
      rw [← List.head?_reverse, hx, List.head?_cons]
    simp only [trimmedB, hget, Bool.and_eq_true] at h
    have hws : isWs c = false := by
      cases hw : isWs c
      · rfl
      · rw [hw] at h; exact absurd h.2 (by simp)
    rw [List.dropWhile_cons, hws]
    simp only [Bool.false_eq_true, if_false]
    rw [← hx, List.reverse_reverse]

theorem trim_of_trimmedB (x : Str) (h : trimmedB x = true) : trim x = x := by
  rw [trim, trimRight_of_trimmedB x h, trimLeft_of_trimmedB x h]

theorem trimLeft_ws_append (a x : Str) (ha : ∀ c ∈ a, isWs c = true) :
    trimLeft (a ++ x) = trimLeft x := by
  rw [trimLeft, List.dropWhile_append_of_pos ha]
  rfl

theorem trimLeft_cons_nws (c : Char) (x : Str) (h : isWs c = false) :
    trimLeft (c :: x) = c :: x := by
  simp [trimLeft, List.dropWhile_cons, h]

theorem trimRight_append_ws (x b : Str) (hb : ∀ c ∈ b, isWs c = true) :
    trimRight (x ++ b) = trimRight x := by
  rw [trimRight, List.reverse_append,
    List.dropWhile_append_of_pos (fun c hc => hb c (List.mem_reverse.mp hc))]
  rfl

theorem trimRight_all_ws (b : Str) (hb : ∀ c ∈ b, isWs c = true) :
    trimRight b = [] := by
  have := trimRight_append_ws [] b hb
  simpa using this

theorem trimRight_append_of_ne (x b : Str) (hb : trimRight b ≠ []) :
    trimRight (x ++ b) = x ++ trimRight b := by
  rw [trimRight, List.reverse_append, List.dropWhile_append]
  have hne : (b.reverse.dropWhile isWs).isEmpty = false := by
    cases hh : b.reverse.dropWhile isWs with
    | nil =>
      exact absurd (by rw [trimRight, hh]; rfl) hb
    | cons c r => rfl
  rw [hne]
  simp only [Bool.false_eq_true, if_false, List.reverse_append,
    List.reverse_reverse]
  rw [trimRight]

theorem trim_sandwich (a t b : Str) (ha : ∀ c ∈ a, isWs c = true)
    (hb : ∀ c ∈ b, isWs c = true) (ht : trimmedB t = true) :
    trim (a ++ t ++ b) = t := by
  rw [trim, trimRight_append_ws (a ++ t) b hb]
  cases t with
  | nil =>
    rw [List.append_nil, trimRight_all_ws a ha]
    rfl
  | cons c t2 =>
    have htr : trimRight (c :: t2) = c :: t2 := trimRight_of_trimmedB _ ht
    rw [trimRight_append_of_ne a _ (by rw [htr]; exact List.cons_ne_nil c t2), htr,
      trimLeft_ws_append a _ ha, trimLeft_of_trimmedB _ ht]

theorem unlines_cons (l : Str) (ls : List Str) :
    unlines (l :: ls) = (l ++ ['\n']) ++ unlines ls := by
  simp [unlines]

theorem splitLines_no_nl (l : Str) (h : '\n' ∉ l) : splitLines l = [l] := by
  induction l with
  | nil => rfl
  | cons c r ih =>
    have hc : ¬ c = '\n' := fun hh => h (hh ▸ List.mem_cons_self c r)
    have hr : '\n' ∉ r := fun hh => h (List.mem_cons_of_mem c hh)
    rw [splitLines]
    simp only [hc, if_false]
    rw [ih hr]

theorem splitLines_append_nl (l y : Str) (h : '\n' ∉ l) :
    splitLines (l ++ '\n' :: y) = l :: splitLines y := by
  induction l with
  | nil =>
    simp only [List.nil_append]
    rw [splitLines]
    simp
  | cons c r ih =>
    have hc : ¬ c = '\n' := fun hh => h (hh ▸ List.mem_cons_self c r)
    have hr : '\n' ∉ r := fun hh => h (List.mem_cons_of_mem c hh)
    rw [List.cons_append, splitLines]
    simp only [hc, if_false]
    rw [ih hr]

theorem splitLines_unlines_append (ls : List Str) (tail : Str)
    (h : ∀ l ∈ ls, '\n' ∉ l) (ht : '\n' ∉ tail) :
    splitLines (unlines ls ++ tail) = ls ++ [tail] := by
  induction ls with
  | nil =>
    simp only [unlines, List.map_nil, List.flatten_nil, List.nil_append]
    exact splitLines_no_nl tail ht
  | cons l ls2 ih =>
    rw [unlines_cons, List.append_assoc, List.append_assoc]
    have : l ++ (['\n'] ++ (unlines ls2 ++ tail))
        = l ++ '\n' :: (unlines ls2 ++ tail) := rfl
    rw [this, splitLines_append_nl l _ (h l (List.mem_cons_self _ _)),
      ih (fun x hx => h x (List.mem_cons_of_mem _ hx))]
    rfl

theorem joinNl_cons_of_ne (l : Str) (ls : List Str) (h : ls ≠ []) :
    joinNl (l :: ls) = l ++ '\n' :: joinNl ls := by
  cases ls with
  | nil => exact absurd rfl h
  | cons l2 ls2 =>
    simp only [joinNl, List.map_cons, List.flatten_cons]
    rfl

/-! ### The entry regex on writer-shaped text -/

/-- Last character, when present, is not whitespace. -/
def lastNonWs (x : Str) : Prop := ∀ c, x.getLast? = some c → isWs c = false

theorem lastNonWs_of_trimmedB (x : Str) (h : trimmedB x = true) : lastNonWs x := by
  intro c hc
  simp only [trimmedB, hc, Bool.and_eq_true] at h
  cases hw : isWs c
  · rfl
  · rw [hw] at h; exact absurd h.2 (by simp)

theorem dropWhile_nil_all {p : Char → Bool} (l : Str)
    (h : l.dropWhile p = []) : ∀ c ∈ l, p c = true := by
  induction l with
  | nil => intro c hc; cases hc
  | cons a r ih =>
    rw [List.dropWhile_cons] at h
    by_cases ha : p a = true
    · rw [ha] at h
      simp only [if_true] at h
      intro c hc
      rcases List.mem_cons.mp hc with rfl | hc2
      · exact ha
      · exact ih h c hc2
    · simp only [ha] at h
      cases h

theorem head_dropWhile_mem {p : Char → Bool} (l : Str) (c : Char)
    (h : (l.dropWhile p).head? = some c) : c ∈ l := by
  induction l with
  | nil => cases h
  | cons a r ih =>
    rw [List.dropWhile_cons] at h
    cases hpa : p a with
    | true =>
      rw [hpa] at h
      simp only [if_true] at h
      exact List.mem_cons_of_mem a (ih h)
    | false =>
      rw [hpa] at h
      simp only [Bool.false_eq_true, if_false, List.head?_cons] at h
      injection h with h
      exact h ▸ List.mem_cons_self a r

theorem dropWhile_idem (p : Char → Bool) (l : Str) :
    (l.dropWhile p).dropWhile p = l.dropWhile p := by
  induction l with
  | nil => rfl
  | cons a r ih =>
    rw [List.dropWhile_cons]
    cases hpa : p a with
    | false =>
      simp only [Bool.false_eq_true, if_false]
      rw [List.dropWhile_cons, hpa]
      simp
    | true =>
      simp only [if_true]
      exact ih

theorem getLast?_of_ne_nil_cons (c : Char) (x : Str) (h : x ≠ []) :
    (c :: x).getLast? = x.getLast? := by
  cases x with
  | nil => exact absurd rfl h
  | cons b r => rfl

theorem dropWhile_ws_ne_nil (x : Str) (hne : x ≠ []) (hl : lastNonWs x) :
    x.dropWhile isWs ≠ [] := by
  intro hnil
  have hall := dropWhile_nil_all x hnil
  cases hx : x.getLast? with
  | none =>
    cases x with
    | nil => exact hne rfl
    | cons a r => rw [List.getLast?_cons] at hx; simp at hx
  | some c =>
    have := hl c hx
    have hmem : c ∈ x := List.mem_of_mem_getLast? (by rw [hx]; rfl)
    rw [hall c hmem] at this
    cases this

theorem scanTipsGo_stop (rest : Str)
    (hstop : rest.dropWhile isWs = [] ∨ (rest.dropWhile isWs).head? = some '-') :
    scanTipsGo rest = ([], rest.dropWhile isWs) := by
  cases rest with
  | nil => rfl
  | cons c2 r2 =>
    rw [scanTipsGo]
    have hcond : (((c2 :: r2).dropWhile isWs).isEmpty
        || (((c2 :: r2).dropWhile isWs).head? == some '-')) = true := by
      rcases hstop with h1 | h1
      · rw [h1]; rfl
      · rw [h1]; simp
    simp only [hcond, if_true]

theorem scanTipsGo_spec (x rest : Str) (hx1 : '-' ∉ x) (hxl : lastNonWs x)
    (hstop : rest.dropWhile isWs = [] ∨ (rest.dropWhile isWs).head? = some '-') :
    scanTipsGo (x ++ rest) = (x, rest.dropWhile isWs) := by
  induction x with
  | nil =>
    simp only [List.nil_append]
    exact scanTipsGo_stop rest hstop
  | cons c x2 ih =>
    rw [List.cons_append]
    have hcm : c ≠ '-' := fun hh => hx1 (hh ▸ List.mem_cons_self c x2)
    by_cases hcw : isWs c = true
    · -- the head is whitespace: since the last character of x is not, x2 is
      -- nonempty and its whitespace-dropped form starts inside x2
      have hx2ne : x2 ≠ [] := by
        intro hnil
        subst hnil
        have := hxl c rfl
        rw [hcw] at this
        cases this

      have hxl2 : lastNonWs x2 := by
        intro d hd
        exact hxl d (by rw [getLast?_of_ne_nil_cons c x2 hx2ne]; exact hd)
      have hx12 : '-' ∉ x2 := fun hh => hx1 (List.mem_cons_of_mem c hh)
      have hdw : (x2 ++ rest).dropWhile isWs = x2.dropWhile isWs ++ rest := by
        rw [List.dropWhile_append]
        have : (x2.dropWhile isWs).isEmpty = false := by
          cases hh : x2.dropWhile isWs with
          | nil => exact absurd hh (dropWhile_ws_ne_nil x2 hx2ne hxl2)
          | cons a r => rfl
        rw [this]
        simp
      have hys : ((c :: x2) ++ rest).dropWhile isWs = x2.dropWhile isWs ++ rest := by
        rw [List.cons_append, List.dropWhile_cons, hcw]
        simp only [if_true]
        exact hdw
      have hne2 : x2.dropWhile isWs ≠ [] := dropWhile_ws_ne_nil x2 hx2ne hxl2
      have hcond : (((c :: (x2 ++ rest)).dropWhile isWs).isEmpty
            || (((c :: (x2 ++ rest)).dropWhile isWs).head? == some '-')) = false := by
        rw [← List.cons_append, hys]
        cases hh : x2.dropWhile isWs with
        | nil => exact absurd hh hne2
        | cons a r =>
          have ham : a ∈ x2 := head_dropWhile_mem x2 a (by rw [hh]; rfl)
          have hane : a ≠ '-' := fun hh2 => hx12 (hh2 ▸ ham)
          simp [hane]
      rw [scanTipsGo]
      simp only [hcond, Bool.false_eq_true, if_false]
      rw [ih hx12 hxl2]
    · have hcws : isWs c = false := by
        cases hw : isWs c
        · rfl
        · exact absurd hw hcw
      have hcond : (((c :: (x2 ++ rest)).dropWhile isWs).isEmpty
            || (((c :: (x2 ++ rest)).dropWhile isWs).head? == some '-')) = false := by
        rw [List.dropWhile_cons, hcws]
        simp [hcm]
      rw [scanTipsGo]
      simp only [hcond, Bool.false_eq_true, if_false]
      have hxl2 : lastNonWs x2 := by
        intro d hd
        cases hx2 : x2 with
        | nil => rw [hx2] at hd; cases hd
        | cons b r =>
          apply hxl d
          rw [getLast?_of_ne_nil_cons c x2 (by rw [hx2]; exact List.cons_ne_nil b r)]
          exact hd
      rw [ih (fun hh => hx1 (List.mem_cons_of_mem c hh)) hxl2]

/-- Writer form of the tips group: a space, the tips field, then the rest
(which after whitespace reaches a `-` or the end). -/
theorem scanTips_writer (x rest : Str) (hx1 : '-' ∉ x) (hx2 : trimmedB x = true)
    (hstop : rest.dropWhile isWs = [] ∨ (rest.dropWhile isWs).head? = some '-') :
    scanTips (' ' :: (x ++ rest)) = (x, rest.dropWhile isWs) := by
  rw [scanTips, List.dropWhile_cons]
  have : isWs ' ' = true := by decide
  rw [this]
  simp only [if_true]
  cases hx : x with
  | nil =>
    simp only [List.nil_append]
    have h2 := scanTipsGo_stop (rest.dropWhile isWs)
      (by rw [dropWhile_idem]; exact hstop)
    rw [dropWhile_idem] at h2
    exact h2
  | cons c x2 =>
    have hhead : isWs c = false := by
      rw [hx] at hx2
      simp only [trimmedB, List.head?_cons, Bool.and_eq_true] at hx2
      cases hw : isWs c
      · rfl
      · rw [hw] at hx2; exact absurd hx2.1 (by simp)
    rw [List.cons_append, List.dropWhile_cons, hhead]
    simp only [Bool.false_eq_true, if_false]
    rw [← List.cons_append, ← hx]
    exact scanTipsGo_spec x rest hx1 (lastNonWs_of_trimmedB x hx2) hstop

theorem splitFirst_some_len (n s : Str) (p : Str × Str)
    (h : splitFirst n s = some p) : p.2.length ≤ s.length := by
  induction s generalizing p with
  | nil =>
    rw [splitFirst] at h
    by_cases hn : n = []
    · rw [if_pos hn] at h
      injection h with h
      subst h
      simp
    · rw [if_neg hn] at h
      cases h
  | cons c rest ih =>
    rw [splitFirst] at h
    by_cases hl : leadsWith n (c :: rest) = true
    · rw [if_pos hl] at h
      injection h with h
      subst h
      simp only [List.length_drop]
      omega
    · rw [if_neg hl] at h
      cases hsp : splitFirst n rest with
      | none => rw [hsp] at h; cases h
      | some q =>
        rw [hsp] at h
        cases hq : q with
        | mk a b =>
          rw [hq] at h
          injection h with h
          subst h
          have := ih q hsp
          rw [hq] at this
          simp only at this ⊢
          simp only [List.length_cons]
          omega

theorem dropWhile_len_le (p : Char → Bool) (l : Str) :
    (l.dropWhile p).length ≤ l.length := by
  induction l with
  | nil => simp
  | cons c r ih =>
    rw [List.dropWhile_cons]
    cases hp : p c with
    | false => simp
    | true =>
      rw [if_pos rfl]
      simp only [List.length_cons]
      omega

theorem scanTipsGo_len (s : Str) : (scanTipsGo s).2.length ≤ s.length := by
  induction s with
  | nil => simp [scanTipsGo]
  | cons c rest ih =>
    rw [scanTipsGo]
    by_cases hc : (((c :: rest).dropWhile isWs).isEmpty
        || (((c :: rest).dropWhile isWs).head? == some '-')) = true
    · rw [if_pos hc]
      exact dropWhile_len_le _ _
    · rw [if_neg hc]
      simp only [List.length_cons]
      omega

theorem scanTips_len (s : Str) : (scanTips s).2.length ≤ s.length := by
  rw [scanTips]
  calc (scanTipsGo (s.dropWhile isWs)).2.length
      ≤ (s.dropWhile isWs).length := scanTipsGo_len _
    _ ≤ s.length := dropWhile_len_le _ _

theorem dropLead_some_len (n s t : Str) (h : dropLead n s = some t) :
    t.length ≤ s.length := by
  rw [dropLead] at h
  by_cases hl : leadsWith n s = true
  · rw [if_pos hl] at h
    injection h with h
    subst h
    simp
  · rw [if_neg hl] at h
    cases h

theorem matchEntryAt_some_len (m : DiaryMarkers) (s : Str)
    (er : (Str × Str × Str × Str) × Str) (h : matchEntryAt m s = some er) :
    er.2.length < s.length := by
  cases s with
  | nil => cases h
  | cons c s0 =>
    rw [matchEntryAt] at h
    by_cases hc : c = '-'
    · rw [if_pos hc] at h
      cases hdl : dropLead ['*', '*'] (s0.dropWhile isWs) with
      | none => rw [hdl] at h; cases h
      | some s2 =>
        rw [hdl, Option.some_bind] at h
        cases hp : splitFirst ['*', '*'] s2 with
        | none => rw [hp] at h; cases h
        | some pr =>
          rw [hp, Option.some_bind] at h
          cases hq : splitFirst m.trial pr.2 with
          | none => rw [hq] at h; cases h
          | some qr =>
            rw [hq, Option.some_bind] at h
            cases ht : splitFirst m.answer qr.2 with
            | none => rw [ht] at h; cases h
            | some tr =>
              rw [ht, Option.some_bind] at h
              cases ha : splitFirst m.tips tr.2 with
              | none => rw [ha] at h; cases h
              | some ar =>
                rw [ha, Option.some_bind] at h
                injection h with h
                subst h
                simp only
                have l1 : (scanTips ar.2).2.length ≤ ar.2.length := scanTips_len _
                have l2 := splitFirst_some_len _ _ _ ha
                have l3 := splitFirst_some_len _ _ _ ht
                have l4 := splitFirst_some_len _ _ _ hq
                have l5 := splitFirst_some_len _ _ _ hp
                have l6 := dropLead_some_len _ _ _ hdl
                have l7 : (s0.dropWhile isWs).length ≤ s0.length :=
                  dropWhile_len_le _ _
                simp only [List.length_cons]
                omega
    · rw [if_neg hc] at h
      cases h

theorem findEntriesGo_fuel (m : DiaryMarkers) :
    ∀ f1 f2 s, s.length ≤ f1 → s.length ≤ f2 →
      findEntriesGo m f1 s = findEntriesGo m f2 s := by
  intro f1
  induction f1 with
  | zero =>
    intro f2 s h1 _
    have hs : s = [] := List.eq_nil_of_length_eq_zero (Nat.le_zero.mp h1)
    subst hs
    cases f2 <;> rfl
  | succ f ih =>
    intro f2 s h1 h2
    cases s with
    | nil => cases f2 <;> rfl
    | cons c rest =>
      cases f2 with
      | zero => simp at h2
      | succ f2b =>
        rw [findEntriesGo, findEntriesGo]
        cases hm : matchEntryAt m (c :: rest) with
        | some er =>
          have hlen := matchEntryAt_some_len m _ er hm
          simp only [List.length_cons] at hlen h1 h2
          show er.1 :: findEntriesGo m f er.2 = er.1 :: findEntriesGo m f2b er.2
          rw [ih f2b er.2 (by omega) (by omega)]
        | none =>
          simp only [List.length_cons] at h1 h2
          show findEntriesGo m f rest = findEntriesGo m f2b rest
          exact ih f2b rest (by omega) (by omega)

theorem findEntries_of_fuel (m : DiaryMarkers) (fuel : Nat) (s : Str)
    (h : s.length ≤ fuel) : findEntriesGo m fuel s = findEntries m s :=
  findEntriesGo_fuel m fuel s.length s h (le_refl _)

/-- Well-formedness of one diary marker string assumed by the round-trip
theorems; the stock markers (`Trial:`, `Answer:`, `Tips:` and the HTML-span
variants of the shipped configuration) all satisfy it. -/
structure MarkerOk (mk : Str) : Prop where
  ne : mk ≠ []
  no_nl : '\n' ∉ mk
  colon : ':' ∈ mk
  trimmed : trimmedB mk = true
  no_id : NoOccur idColon mk

/-- Well-formedness of the three diary markers. -/
def MarkersOk (m : DiaryMarkers) : Prop :=
  MarkerOk m.trial ∧ MarkerOk m.answer ∧ MarkerOk m.tips

theorem markerOk_head (mk : Str) (h : MarkerOk mk) :
    ∃ c0, mk.head? = some c0 ∧ isWs c0 = false := by
  cases mk with
  | nil => exact absurd rfl h.ne
  | cons c r =>
    refine ⟨c, rfl, ?_⟩
    have ht := h.trimmed
    simp only [trimmedB, List.head?_cons, Bool.and_eq_true] at ht
    cases hw : isWs c
    · rfl
    · rw [hw] at ht; exact absurd ht.1 (by simp)

theorem no_occ_append_combine (n u1 u2 w : Str)
    (h1 : ∀ i, i < u1.length → leadsWith n ((u1 ++ (u2 ++ w)).drop i) = false)
    (h2 : ∀ i, i < u2.length → leadsWith n ((u2 ++ w).drop i) = false) :
    ∀ i, i < (u1 ++ u2).length → leadsWith n (((u1 ++ u2) ++ w).drop i) = false := by
  intro i hi
  rw [List.append_assoc]
  by_cases h : i < u1.length
  · exact h1 i h
  · push_neg at h
    rw [List.drop_append_eq_append_drop, List.drop_eq_nil_of_le h, List.nil_append]
    exact h2 (i - u1.length) (by simp at hi; omega)

theorem splitFirst_marker0 (mk : Str) (h : MarkerOk mk) (v : Str) :
    splitFirst mk (['\n', ' ', ' '] ++ (mk ++ v)) = some (['\n', ' ', ' '], v) := by
  apply splitFirst_append
  obtain ⟨c0, hc0, hw⟩ := markerOk_head mk h
  apply no_occ_head mk ['\n', ' ', ' '] (mk ++ v) c0 hc0
  intro hmem
  have hws : isWs c0 = true := by
    simp only [List.mem_cons, List.not_mem_nil, or_false] at hmem
    rcases hmem with rfl | rfl | rfl <;> decide
  rw [hw] at hws
  cases hws

theorem splitFirst_marker (mk : Str) (h : MarkerOk mk) (T v : Str)
    (hT : ':' ∉ T) :
    splitFirst mk ((' ' :: T ++ ['\n', ' ', ' ']) ++ (mk ++ v))
      = some (' ' :: T ++ ['\n', ' ', ' '], v) := by
  apply splitFirst_append
  obtain ⟨c0, hc0, hw⟩ := markerOk_head mk h
  have hc0sp : c0 ∉ [' '] := by
    intro hmem
    simp only [List.mem_cons, List.not_mem_nil, or_false] at hmem
    subst hmem
    cases hw
  have hc0ws : c0 ∉ (['\n', ' ', ' '] : Str) := by
    intro hmem
    have hws : isWs c0 = true := by
      simp only [List.mem_cons, List.not_mem_nil, or_false] at hmem
      rcases hmem with rfl | rfl | rfl <;> decide
    rw [hw] at hws
    cases hws
  have hshape : (' ' :: T ++ ['\n', ' ', ' '])
      = [' '] ++ (T ++ ['\n', ' ', ' ']) := by simp
  rw [hshape]
  apply no_occ_append_combine
  · exact no_occ_head mk [' '] _ c0 hc0 hc0sp
  · apply no_occ_append_combine
    · exact no_occ_barrier mk T _ ':' '\n' h.colon hT rfl h.no_nl
    · exact no_occ_head mk ['\n', ' ', ' '] _ c0 hc0 hc0ws

theorem trim_marker_capture (T : Str) (hTt : trimmedB T = true) :
    trim (' ' :: T ++ ['\n', ' ', ' ']) = T := by
  have h := trim_sandwich [' '] T ['\n', ' ', ' ']
    (by intro c hc; simp only [List.mem_cons, List.not_mem_nil, or_false] at hc
        subst hc; decide)
    (by intro c hc; simp only [List.mem_cons, List.not_mem_nil, or_false] at hc
        rcases hc with rfl | rfl | rfl <;> decide)
    hTt
  simpa using h

theorem dropLead_stars (R : Str) : dropLead ['*', '*'] ('*' :: '*' :: R) = some R := by
  simp [dropLead, leadsWith]

theorem dropWhile_ws_sp_stars (Q : Str) :
    List.dropWhile isWs (' ' :: '*' :: '*' :: Q) = '*' :: '*' :: Q := by
  rw [List.dropWhile_cons]
  have h1 : isWs ' ' = true := by decide
  rw [h1]
  simp only [if_true]
  rw [List.dropWhile_cons]
  have h2 : isWs '*' = false := by decide
  rw [h2]
  simp

/-- One writer-format entry matches the embedded regex with exactly its four
fields as captures; the tips group is supplied through `hscan`. -/
theorem matchEntryAt_writerCore (m : DiaryMarkers) (hm : MarkersOk m)
    (P T A : Str) (tipsTail : Str) (X rest2 : Str)
    (hP : '*' ∉ P) (hT : ':' ∉ T) (hA : ':' ∉ A)
    (hTt : trimmedB T = true) (hAt : trimmedB A = true)
    (hscan : scanTips tipsTail = (X, rest2)) :
    matchEntryAt m
      ('-' :: ' ' :: '*' :: '*' ::
        (P ++ (['*', '*'] ++
          (['\n', ' ', ' '] ++ (m.trial ++
            ((' ' :: T ++ ['\n', ' ', ' ']) ++ (m.answer ++
              ((' ' :: A ++ ['\n', ' ', ' ']) ++ (m.tips ++ tipsTail)))))))))
      = some ((P, T, A, X), rest2) := by
  obtain ⟨hmt, hma, hmp⟩ := hm
  rw [matchEntryAt, if_pos rfl, dropWhile_ws_sp_stars, dropLead_stars,
    Option.some_bind]
  rw [splitFirst_append ['*', '*'] P _
    (no_occ_head ['*', '*'] P _ '*' rfl hP), Option.some_bind]
  rw [splitFirst_marker0 m.trial hmt _, Option.some_bind]
  rw [splitFirst_marker m.answer hma T _ hT, Option.some_bind]
  rw [splitFirst_marker m.tips hmp A _ hA, Option.some_bind]
  simp only [trim_marker_capture T hTt, trim_marker_capture A hAt, hscan]

/-- Side condition on one entry field for the round-trip theorems: free of
the grammar's structural characters and already stripped.  (The colon
exclusion also keeps the Joplin `id:`-pattern of `clean_joplin_markdown`
from firing inside the file.) -/
abbrev CleanField (f : Str) : Prop :=
  ('\n' ∉ f) ∧ ('*' ∉ f) ∧ (':' ∉ f) ∧ ('-' ∉ f) ∧ trimmedB f = true

/-- All four fields of an entry are clean. -/
abbrev CleanEntry (e : DiaryEntry) : Prop :=
  CleanField e.primary ∧ CleanField e.trial ∧ CleanField e.study ∧
    CleanField e.tips

/-- The regex-match tuple of an entry. -/
def tupleOf (e : DiaryEntry) : Str × Str × Str × Str :=
  (e.primary, e.trial, e.study, e.tips)

/-- Character stream of one written entry without its final `\n\n`,
in the nested shape consumed by `matchEntryAt_writerCore`. -/
def entryCoreText (m : DiaryMarkers) (e : DiaryEntry) : Str :=
  '-' :: ' ' :: '*' :: '*' ::
    (e.primary ++ (['*', '*'] ++
      (['\n', ' ', ' '] ++ (m.trial ++
        ((' ' :: e.trial ++ ['\n', ' ', ' ']) ++ (m.answer ++
          ((' ' :: e.study ++ ['\n', ' ', ' ']) ++ (m.tips ++
            (' ' :: e.tips)))))))))

/-- Same stream with everything before the tips field flattened out. -/
def corePrefix (m : DiaryMarkers) (e : DiaryEntry) : Str :=
  '-' :: ' ' :: '*' :: '*' ::
    (e.primary ++ (['*', '*'] ++
      (['\n', ' ', ' '] ++ (m.trial ++
        ((' ' :: e.trial ++ ['\n', ' ', ' ']) ++ (m.answer ++
          ((' ' :: e.study ++ ['\n', ' ', ' ']) ++ m.tips)))))))

theorem entryCoreText_eq_corePrefix (m : DiaryMarkers) (e : DiaryEntry) :
    entryCoreText m e = corePrefix m e ++ (' ' :: e.tips) := by
  simp [entryCoreText, corePrefix, List.append_assoc]

theorem entryCoreText_append (m : DiaryMarkers) (e : DiaryEntry) (tail : Str) :
    entryCoreText m e ++ tail
      = '-' :: ' ' :: '*' :: '*' ::
        (e.primary ++ (['*', '*'] ++
          (['\n', ' ', ' '] ++ (m.trial ++
            ((' ' :: e.trial ++ ['\n', ' ', ' ']) ++ (m.answer ++
              ((' ' :: e.study ++ ['\n', ' ', ' ']) ++ (m.tips ++
                (' ' :: (e.tips ++ tail)))))))))) := by
  simp [entryCoreText, List.append_assoc]

theorem corePrefix_shape (m : DiaryMarkers) (e : DiaryEntry) :
    corePrefix m e
      = '-' :: ' ' :: '*' :: '*' ::
        (e.primary ++ (['*', '*'] ++
          (['\n', ' ', ' '] ++ (m.trial ++
            ((' ' :: e.trial ++ ['\n', ' ', ' ']) ++ (m.answer ++
              ((' ' :: e.study ++ ['\n', ' ', ' ']) ++ (m.tips ++ [])))))))) := by
  simp [corePrefix]

theorem trimRight_cons_of_last (c : Char) (x : Str) (hx : x ≠ [])
    (hl : lastNonWs x) : trimRight (c :: x) = c :: x := by
  have hdw : x.reverse.dropWhile isWs = x.reverse := by
    cases hxr : x.reverse with
    | nil => rfl
    | cons a r =>
      have hga : x.getLast? = some a := by
        rw [← List.head?_reverse, hxr, List.head?_cons]
      have hnws := hl a hga
      rw [List.dropWhile_cons, hnws]
      simp
  have hempty : (x.reverse).isEmpty = false := by
    cases hxr : x.reverse with
    | nil => exact absurd (by simpa using congrArg List.reverse hxr) hx
    | cons a r => rfl
  rw [trimRight, List.reverse_cons, List.dropWhile_append, hdw, hempty]
  simp only [Bool.false_eq_true, if_false, List.reverse_append,
    List.reverse_reverse]
  simp

theorem trimRight_entryCoreText_pos (m : DiaryMarkers) (e : DiaryEntry)
    (htips : e.tips ≠ []) (htt : trimmedB e.tips = true) :
    trimRight (entryCoreText m e) = entryCoreText m e := by
  rw [entryCoreText_eq_corePrefix]
  have h1 : trimRight (' ' :: e.tips) = ' ' :: e.tips :=
    trimRight_cons_of_last ' ' e.tips htips (lastNonWs_of_trimmedB _ htt)
  rw [trimRight_append_of_ne _ _ (by rw [h1]; exact List.cons_ne_nil _ _), h1]

theorem trimRight_entryCoreText_nil (m : DiaryMarkers) (hmp : MarkerOk m.tips)
    (e : DiaryEntry) (htips : e.tips = []) :
    trimRight (entryCoreText m e) = corePrefix m e := by
  rw [entryCoreText_eq_corePrefix, htips]
  have h1 : trimRight (corePrefix m e ++ [' ']) = trimRight (corePrefix m e) :=
    trimRight_append_ws _ [' '] (by
      intro c hc
      simp only [List.mem_cons, List.not_mem_nil, or_false] at hc
      subst hc; decide)
  have h2 : corePrefix m e
      = ('-' :: ' ' :: '*' :: '*' ::
          (e.primary ++ (['*', '*'] ++
            (['\n', ' ', ' '] ++ (m.trial ++
              ((' ' :: e.trial ++ ['\n', ' ', ' ']) ++ (m.answer ++
                (' ' :: e.study ++ ['\n', ' ', ' ']))))))))
        ++ m.tips := by
    simp [corePrefix, List.append_assoc]
  have h3 : trimRight (corePrefix m e) = corePrefix m e := by
    rw [h2, trimRight_append_of_ne _ _ (by
        rw [trimRight_of_trimmedB _ hmp.trimmed]; exact hmp.ne),
      trimRight_of_trimmedB _ hmp.trimmed]
  calc trimRight (corePrefix m e ++ (' ' :: ([] : Str)))
      = trimRight (corePrefix m e ++ [' ']) := rfl
    _ = trimRight (corePrefix m e) := h1
    _ = corePrefix m e := h3

/-- Character stream of a whole day block as `get_text_for_date` returns it:
entries joined by blank lines, with trailing whitespace stripped (which can
eat the space after the tips marker of the last entry when its tips field is
empty). -/
def dayBlockText (m : DiaryMarkers) : List DiaryEntry → Str
  | [] => []
  | [e] => trimRight (entryCoreText m e)
  | e :: e2 :: es => entryCoreText m e ++ ('\n' :: '\n' :: dayBlockText m (e2 :: es))

theorem dayBlock_starts_dash (m : DiaryMarkers) (hmp : MarkerOk m.tips)
    (es : List DiaryEntry) (hne : es ≠ []) (hclean : ∀ e ∈ es, CleanEntry e) :
    ∃ r, dayBlockText m es = '-' :: r := by
  cases es with
  | nil => exact absurd rfl hne
  | cons e es2 =>
    cases es2 with
    | nil =>
      by_cases ht : e.tips = []
      · exact ⟨_, by
          rw [dayBlockText, trimRight_entryCoreText_nil m hmp e ht, corePrefix]⟩
      · exact ⟨_, by
          rw [dayBlockText, trimRight_entryCoreText_pos m e ht
            (hclean e (List.mem_cons_self _ _)).2.2.2.2.2.2.2, entryCoreText]⟩
    | cons e2 es3 =>
      exact ⟨_, by rw [dayBlockText, entryCoreText, List.cons_append]⟩

theorem findEntriesGo_nil_any (m : DiaryMarkers) (fuel : Nat) :
    findEntriesGo m fuel [] = [] := by
  cases fuel <;> rfl

theorem scanTips_last (X : Str) (hX1 : '-' ∉ X) (hXt : trimmedB X = true) :
    scanTips (' ' :: X) = (X, []) := by
  have h := scanTips_writer X [] hX1 hXt (Or.inl rfl)
  simpa using h

theorem dropWhile_nlnl_dash (r : Str) :
    List.dropWhile isWs ('\n' :: '\n' :: '-' :: r) = '-' :: r := by
  have h1 : isWs '\n' = true := by decide
  have h2 : isWs '-' = false := by decide
  rw [List.dropWhile_cons, h1]
  simp only [if_true]
  rw [List.dropWhile_cons, h1]
  simp only [if_true]
  rw [List.dropWhile_cons, h2]
  simp

/-- Scanning a writer-format day block finds exactly its entries, in order,
with their exact fields as captures. -/
theorem findEntriesGo_dayBlock (m : DiaryMarkers) (hm : MarkersOk m)
    (es : List DiaryEntry) (hclean : ∀ e ∈ es, CleanEntry e) :
    ∀ fuel, (dayBlockText m es).length ≤ fuel →
      findEntriesGo m fuel (dayBlockText m es) = es.map tupleOf := by
  induction es with
  | nil =>
    intro fuel _
    rw [dayBlockText]
    exact findEntriesGo_nil_any m fuel
  | cons e es2 ih =>
    have hce := hclean e (List.mem_cons_self _ _)
    obtain ⟨hceP, hceT, hceA, hceX⟩ := hce
    cases es2 with
    | nil =>
      intro fuel hl
      by_cases ht : e.tips = []
      · rw [dayBlockText, trimRight_entryCoreText_nil m hm.2.2 e ht,
          corePrefix_shape] at hl ⊢
        cases fuel with
        | zero => simp at hl
        | succ f =>
          rw [findEntriesGo,
            matchEntryAt_writerCore m hm e.primary e.trial e.study [] [] []
              hceP.2.1 hceT.2.2.1 hceA.2.2.1 hceT.2.2.2.2 hceA.2.2.2.2 rfl]
          show ((e.primary, e.trial, e.study, ([] : Str)), ([] : Str)).1
              :: findEntriesGo m f [] = _
          rw [findEntriesGo_nil_any m f]
          simp [tupleOf, ht]
      · rw [dayBlockText, trimRight_entryCoreText_pos m e ht hceX.2.2.2.2,
          entryCoreText] at hl ⊢
        cases fuel with
        | zero => simp at hl
        | succ f =>
          rw [findEntriesGo,
            matchEntryAt_writerCore m hm e.primary e.trial e.study
              (' ' :: e.tips) e.tips []
              hceP.2.1 hceT.2.2.1 hceA.2.2.1 hceT.2.2.2.2 hceA.2.2.2.2
              (scanTips_last e.tips hceX.2.2.2.1 hceX.2.2.2.2)]
          show ((e.primary, e.trial, e.study, e.tips), ([] : Str)).1
              :: findEntriesGo m f [] = _
          rw [findEntriesGo_nil_any m f]
          simp [tupleOf]
    | cons e2 es3 =>
      intro fuel hl
      have hcr : ∀ x ∈ e2 :: es3, CleanEntry x :=
        fun x hx => hclean x (List.mem_cons_of_mem _ hx)
      obtain ⟨r, hr⟩ := dayBlock_starts_dash m hm.2.2 (e2 :: es3)
        (List.cons_ne_nil _ _) hcr
      have hscan : scanTips (' ' :: (e.tips ++ ('\n' :: '\n' :: dayBlockText m (e2 :: es3))))
          = (e.tips, dayBlockText m (e2 :: es3)) := by
        have h := scanTips_writer e.tips ('\n' :: '\n' :: dayBlockText m (e2 :: es3))
          hceX.2.2.2.1 hceX.2.2.2.2
          (by rw [hr]; right; rw [dropWhile_nlnl_dash]; rfl)
        rw [h, hr, dropWhile_nlnl_dash, ← hr]
      rw [dayBlockText, entryCoreText_append] at hl ⊢
      cases fuel with
      | zero => simp at hl
      | succ f =>
        rw [findEntriesGo,
          matchEntryAt_writerCore m hm e.primary e.trial e.study
            (' ' :: (e.tips ++ ('\n' :: '\n' :: dayBlockText m (e2 :: es3))))
            e.tips (dayBlockText m (e2 :: es3))
            hceP.2.1 hceT.2.2.1 hceA.2.2.1 hceT.2.2.2.2 hceA.2.2.2.2 hscan]
        show ((e.primary, e.trial, e.study, e.tips),
            dayBlockText m (e2 :: es3)).1
            :: findEntriesGo m f (dayBlockText m (e2 :: es3)) = _
        have hlen : (dayBlockText m (e2 :: es3)).length ≤ f := by
          simp only [List.length_cons, List.length_append] at hl
          omega
        rw [ih hcr f hlen]
        simp [tupleOf]

/-- Writer-format day blocks parse to exactly their entries. -/
theorem findEntries_dayBlock (m : DiaryMarkers) (hm : MarkersOk m)
    (es : List DiaryEntry) (hclean : ∀ e ∈ es, CleanEntry e) :
    findEntries m (dayBlockText m es) = es.map tupleOf :=
  findEntriesGo_dayBlock m hm es hclean _ (le_refl _)

/-! ### Parsed entries and header lines -/

theorem removeAllGo_not_mem (needle : Str) (c0 : Char) (h0 : needle.head? = some c0) :
    ∀ fuel s, c0 ∉ s → removeAllGo needle fuel s = s := by
  intro fuel
  induction fuel with
  | zero =>
    intro s _
    cases s <;> rfl
  | succ f ih =>
    intro s hs
    cases s with
    | nil => rfl
    | cons c rest =>
      have hne : c0 ≠ c := fun hh => hs (hh ▸ List.mem_cons_self c rest)
      have hlw : leadsWith needle (c :: rest) = false :=
        leadsWith_head_ne needle c0 h0 c rest hne
      rw [removeAllGo, hlw]
      simp only [Bool.false_and, Bool.false_eq_true, if_false]
      rw [ih rest (fun hh => hs (List.mem_cons_of_mem c hh))]

theorem parseEntryTuple_clean (e : DiaryEntry) (he : CleanEntry e) :
    parseEntryTuple (tupleOf e) = e := by
  obtain ⟨hP, hT, hA, hX⟩ := he
  cases e with
  | mk p t s x =>
    simp only [parseEntryTuple, tupleOf, removeAll]
    rw [removeAllGo_not_mem ['*', '*'] '*' rfl _ _ hP.2.1,
      trim_of_trimmedB _ hP.2.2.2.2, trim_of_trimmedB _ hT.2.2.2.2,
      trim_of_trimmedB _ hA.2.2.2.2, trim_of_trimmedB _ hX.2.2.2.2]

theorem dateShape_props (d : Str) (h : dateShape d = true) :
    d.length = 10 ∧ ∀ c ∈ d, (c.isDigit = true ∨ c = '/') := by
  unfold dateShape at h
  split at h
  · rename_i a b c d2 s1 e f s2 g h2
    constructor
    · rfl
    · simp only [Bool.and_eq_true, beq_iff_eq] at h
      intro c3 hc3
      simp only [List.mem_cons, List.not_mem_nil, or_false] at hc3
      rcases hc3 with rfl | rfl | rfl | rfl | rfl | rfl | rfl | rfl | rfl | rfl
      · exact Or.inl h.1.1.1.1.1.1.1.1.1
      · exact Or.inl h.1.1.1.1.1.1.1.1.2
      · exact Or.inl h.1.1.1.1.1.1.1.2
      · exact Or.inl h.1.1.1.1.1.1.2
      · exact Or.inr h.1.1.1.1.1.2
      · exact Or.inl h.1.1.1.1.2
      · exact Or.inl h.1.1.1.2
      · exact Or.inr h.1.1.2
      · exact Or.inl h.1.2
      · exact Or.inl h.2
  · cases h

theorem dateShape_no_colon (d : Str) (h : dateShape d = true) : ':' ∉ d := by
  intro hmem
  rcases (dateShape_props d h).2 ':' hmem with hd | hd
  · exact absurd hd (by decide)
  · exact absurd hd (by decide)

theorem dateShape_no_mem (d : Str) (h : dateShape d = true) (c : Char)
    (hc1 : c.isDigit = false) (hc2 : c ≠ '/') : c ∉ d := by
  intro hmem
  rcases (dateShape_props d h).2 c hmem with hd | hd
  · rw [hc1] at hd; cases hd
  · exact hc2 hd

theorem headerParse_of_shape (date rest2 : Str) (hd : dateShape date = true) :
    headerParse (['#', '#', ' '] ++ date ++ rest2) = some (date, rest2) := by
  have hlen : date.length = 10 := (dateShape_props date hd).1
  have htake3 : (['#', '#', ' '] ++ date ++ rest2).take 3 = ['#', '#', ' '] := by
    rw [List.append_assoc, List.take_append_of_le_length (by simp)]
    rfl
  have hdrop3 : (['#', '#', ' '] ++ date ++ rest2).drop 3 = date ++ rest2 := by
    rw [List.append_assoc]
    rfl
  have htake10 : (date ++ rest2).take 10 = date := by
    rw [List.take_append_of_le_length (by omega), List.take_of_length_le (by omega)]
  have hdrop13 : (['#', '#', ' '] ++ date ++ rest2).drop 13 = rest2 := by
    rw [List.append_assoc]
    have h13 : (13 : Nat) = 3 + 10 := rfl
    have : (['#', '#', ' '] : Str).length = 3 := rfl
    calc ((['#', '#', ' '] : Str) ++ (date ++ rest2)).drop 13
        = (date ++ rest2).drop 10 := rfl
      _ = rest2 := by
          rw [← hlen]
          have := @List.drop_append _ date rest2 0
          simpa using this
  rw [headerParse, htake3, hdrop3, htake10]
  simp only [if_pos rfl, hd, if_true, hdrop13]

theorem take3_cons_ne (c : Char) (l : Str) (hc : c ≠ '#') :
    ¬ ((c :: l).take 3 = ['#', '#', ' ']) := by
  intro hh
  rw [List.take_succ_cons] at hh
  injection hh with h1 _
  exact hc h1

theorem headerParse_none_head (c : Char) (l : Str) (hc : c ≠ '#') :
    headerParse (c :: l) = none := by
  rw [headerParse, if_neg (take3_cons_ne c l hc)]

theorem headerParse_nil : headerParse [] = none := by
  rw [headerParse]
  simp

theorem extractDateOfLine_of_shape (date rest2 : Str) (hd : dateShape date = true) :
    extractDateOfLine (['#', '#', ' '] ++ date ++ rest2) = some date := by
  have hlen : date.length = 10 := (dateShape_props date hd).1
  have htake2 : (['#', '#', ' '] ++ date ++ rest2).take 2 = ['#', '#'] := by
    rw [List.append_assoc, List.take_append_of_le_length (by simp)]
    rfl
  have hdrop2 : (['#', '#', ' '] ++ date ++ rest2).drop 2 = ' ' :: (date ++ rest2) := by
    rw [List.append_assoc]
    rfl
  have htake10 : (date ++ rest2).take 10 = date := by
    rw [List.take_append_of_le_length (by omega), List.take_of_length_le (by omega)]
  rw [extractDateOfLine, if_pos htake2, hdrop2]
  have hws : isWs ' ' = true := by decide
  simp only [hws, if_true, htake10, hd]

theorem extractDateOfLine_none_head (c : Char) (l : Str) (hc : c ≠ '#') :
    extractDateOfLine (c :: l) = none := by
  rw [extractDateOfLine]
  have : ¬ ((c :: l).take 2 = ['#', '#']) := by
    intro hh
    rw [List.take_succ_cons] at hh
    injection hh with h1 _
    exact hc h1
  rw [if_neg this]

theorem extractDateOfLine_nil : extractDateOfLine [] = none := by
  rw [extractDateOfLine]
  simp

/-! ### Absence of a substring, and Joplin cleaning on clean text -/

/-- Decidable check that `n` occurs nowhere in `s` (at no suffix). -/
def noSubB (n : Str) : Str → Bool
  | [] => !leadsWith n []
  | c :: rest => !leadsWith n (c :: rest) && noSubB n rest

theorem noSubB_leadsWith (n : Str) :
    ∀ s, noSubB n s = true → leadsWith n s = false := by
  intro s h
  cases s with
  | nil =>
    rw [noSubB] at h
    cases hl : leadsWith n [] with
    | false => rfl
    | true => rw [hl] at h; cases h
  | cons c rest =>
    rw [noSubB, Bool.and_eq_true] at h
    cases hl : leadsWith n (c :: rest) with
    | false => rfl
    | true => rw [hl] at h; cases h.1

theorem noSubB_tail (n : Str) (c : Char) (rest : Str)
    (h : noSubB n (c :: rest) = true) : noSubB n rest = true := by
  rw [noSubB, Bool.and_eq_true] at h
  exact h.2

theorem noOccur_of_noSubB (n s : Str) (h : noSubB n s = true) : NoOccur n s := by
  intro i
  induction s generalizing i with
  | nil =>
    rw [List.drop_nil]
    exact noSubB_leadsWith n [] h
  | cons c rest ih =>
    cases i with
    | zero => exact noSubB_leadsWith n (c :: rest) h
    | succ j => exact ih (noSubB_tail n c rest h) j

theorem joplinCut_eq_self (s : Str) (h : noSubB idColon s = true) :
    joplinCut s = s := by
  induction s with
  | nil => rfl
  | cons c rest ih =>
    have hj : joplinAt (c :: rest) = false := by
      rw [joplinAt, noSubB_leadsWith idColon (c :: rest) h]
      rfl
    rw [joplinCut, hj]
    simp only [Bool.false_eq_true, if_false]
    rw [ih (noSubB_tail idColon c rest h)]

theorem clean_joplin_of_noSub (s : Str) (h : noSubB idColon s = true) :
    clean_joplin_markdown s = trim s := by
  rw [clean_joplin_markdown, joplinCut_eq_self s h]

/-! ### Structure of right-trimming -/

theorem trimRight_decomp (s : Str) :
    ∃ w, s = trimRight s ++ w ∧ ∀ c ∈ w, isWs c = true := by
  refine ⟨(s.reverse.takeWhile isWs).reverse, ?_, ?_⟩
  · rw [trimRight]
    conv_lhs => rw [← List.reverse_reverse s]
    conv_lhs => rw [← List.takeWhile_append_dropWhile isWs s.reverse]
    rw [List.reverse_append]
  · intro c hc
    rw [List.mem_reverse] at hc
    exact List.mem_takeWhile_imp hc

theorem trimRight_idem (s : Str) : trimRight (trimRight s) = trimRight s := by
  rw [trimRight, trimRight, List.reverse_reverse, dropWhile_idem]

theorem trimRight_append_trimRight (u a : Str) :
    trimRight (u ++ a) = trimRight (u ++ trimRight a) := by
  obtain ⟨w, hw, hws⟩ := trimRight_decomp a
  conv_lhs => rw [hw]
  rw [← List.append_assoc, trimRight_append_ws (u ++ trimRight a) w hws]

theorem trimRight_ne_nil_of_mem (s : Str) (c : Char) (hc : c ∈ s)
    (hw : isWs c = false) : trimRight s ≠ [] := by
  intro h
  obtain ⟨w, hwEq, hws⟩ := trimRight_decomp s
  rw [h, List.nil_append] at hwEq
  rw [hwEq] at hc
  rw [hws c hc] at hw
  cases hw

theorem trimRight_cons_shape (c : Char) (x : Str) :
    trimRight (c :: x) = [] ∨ ∃ r, trimRight (c :: x) = c :: r := by
  obtain ⟨w, hwEq, _⟩ := trimRight_decomp (c :: x)
  cases ht : trimRight (c :: x) with
  | nil => exact Or.inl rfl
  | cons b r =>
    rw [ht, List.cons_append] at hwEq
    injection hwEq with h1 _
    exact Or.inr ⟨r, by rw [← h1]⟩

theorem mem_of_mem_trimRight (s : Str) (c : Char) (hc : c ∈ trimRight s) :
    c ∈ s := by
  obtain ⟨w, hwEq, _⟩ := trimRight_decomp s
  rw [hwEq]
  exact List.mem_append_left w hc

/-! ### Well-formed days and the line list of the cleaned written text -/

/-- Title writable and re-extractable: nonempty, single-line, colon-free,
already stripped. -/
abbrev CleanTitle (t : Str) : Prop :=
  t ≠ [] ∧ '\n' ∉ t ∧ ':' ∉ t ∧ trimmedB t = true

/-- A day of the round-trip statement: a well-shaped date, an explicit clean
title, and at least one clean entry. -/
def GoodDay (d : DiaryDay) : Prop :=
  dateShape d.date = true ∧ (∃ t, d.title = some t ∧ CleanTitle t) ∧
    d.entries ≠ [] ∧ ∀ e ∈ d.entries, CleanEntry e

/-- The last written entry's lines as they survive the final `strip`: the
closing blank line is gone and the tips line is right-trimmed. -/
def entryLinesLast (m : DiaryMarkers) (e : DiaryEntry) : List Str :=
  [bulletL e, trialLn m e, answerLn m e, trimRight (tipsLn m e)]

/-- Entry lines of one day with the last entry's lines stripped. -/
def procFlat (m : DiaryMarkers) : List DiaryEntry → List Str
  | [] => []
  | [e] => entryLinesLast m e
  | e :: e2 :: es => entryLines m e ++ procFlat m (e2 :: es)

/-- Lines of the cleaned written diary: every day in full, with the very
last entry's lines stripped. -/
def procLines (m : DiaryMarkers) : List DiaryDay → List Str
  | [] => []
  | [d] => headerLine d :: procFlat m d.entries
  | d :: d2 :: ds => dayLines m d ++ procLines m (d2 :: ds)

theorem unlines_append (a b : List Str) :
    unlines (a ++ b) = unlines a ++ unlines b := by
  simp [unlines]

theorem procFlat_concat (m : DiaryMarkers) (es : List DiaryEntry) (e : DiaryEntry) :
    procFlat m (es ++ [e])
      = (es.map (entryLines m)).flatten ++ entryLinesLast m e := by
  induction es with
  | nil => simp [procFlat]
  | cons x rest ih =>
    cases rest with
    | nil => simp [procFlat]
    | cons y rest2 =>
      rw [List.cons_append, List.cons_append]
      rw [procFlat]
      rw [← List.cons_append, ih]
      simp

theorem procLines_concat (m : DiaryMarkers) (ds : List DiaryDay) (d : DiaryDay) :
    procLines m (ds ++ [d])
      = (ds.map (dayLines m)).flatten ++ (headerLine d :: procFlat m d.entries) := by
  induction ds with
  | nil => simp [procLines]
  | cons x rest ih =>
    cases rest with
    | nil => simp [procLines]
    | cons y rest2 =>
      rw [List.cons_append, List.cons_append]
      rw [procLines]
      rw [← List.cons_append, ih]
      simp [dayLines]

theorem headerLine_titled (d : DiaryDay) (t : Str) (hd : d.title = some t)
    (ht : t ≠ []) :
    headerLine d = ['#', '#', ' '] ++ d.date ++ (([':', ' '] ++ t) ++ [' ']) := by
  rw [headerLine, hd]
  simp [ht, List.append_assoc]

theorem headerParse_headerLine (d : DiaryDay) (t : Str) (hd : d.title = some t)
    (ht : t ≠ []) (hds : dateShape d.date = true) :
    headerParse (headerLine d) = some (d.date, ([':', ' '] ++ t) ++ [' ']) := by
  rw [headerLine_titled d t hd ht, headerParse_of_shape d.date _ hds]

theorem extractDateOfLine_headerLine (d : DiaryDay) (t : Str)
    (hd : d.title = some t) (ht : t ≠ []) (hds : dateShape d.date = true) :
    extractDateOfLine (headerLine d) = some d.date := by
  rw [headerLine_titled d t hd ht, extractDateOfLine_of_shape d.date _ hds]

theorem not_mem_append2 (c : Char) (a b : Str) (ha : c ∉ a) (hb : c ∉ b) :
    c ∉ a ++ b := by
  intro h
  rcases List.mem_append.mp h with h | h
  · exact ha h
  · exact hb h

theorem headerLine_no_nl (d : DiaryDay) (t : Str) (hd : d.title = some t)
    (ht : CleanTitle t) (hds : dateShape d.date = true) :
    '\n' ∉ headerLine d := by
  rw [headerLine_titled d t hd ht.1]
  exact not_mem_append2 _ _ _
    (not_mem_append2 _ _ _ (by decide)
      (dateShape_no_mem d.date hds '\n' (by decide) (by decide)))
    (not_mem_append2 _ _ _
      (not_mem_append2 _ _ _ (by decide) ht.2.1) (by decide))

theorem entryLines_no_nl (m : DiaryMarkers) (e : DiaryEntry) (hm : MarkersOk m)
    (he : CleanEntry e) : ∀ l ∈ entryLines m e, '\n' ∉ l := by
  obtain ⟨hP, hT, hA, hX⟩ := he
  intro l hl
  simp only [entryLines, List.mem_cons, List.not_mem_nil, or_false] at hl
  rcases hl with rfl | rfl | rfl | rfl | rfl
  · exact not_mem_append2 _ _ _
      (not_mem_append2 _ _ _ (by decide) hP.1) (by decide)
  · exact not_mem_append2 _ _ _
      (not_mem_append2 _ _ _
        (not_mem_append2 _ _ _ (by decide) hm.1.no_nl) (by decide)) hT.1
  · exact not_mem_append2 _ _ _
      (not_mem_append2 _ _ _
        (not_mem_append2 _ _ _ (by decide) hm.2.1.no_nl) (by decide)) hA.1
  · exact not_mem_append2 _ _ _
      (not_mem_append2 _ _ _
        (not_mem_append2 _ _ _ (by decide) hm.2.2.no_nl) (by decide)) hX.1
  · exact List.not_mem_nil '\n'

theorem entryLinesLast_no_nl (m : DiaryMarkers) (e : DiaryEntry)
    (hm : MarkersOk m) (he : CleanEntry e) :
    ∀ l ∈ entryLinesLast m e, '\n' ∉ l := by
  intro l hl
  simp only [entryLinesLast, List.mem_cons, List.not_mem_nil, or_false] at hl
  have hfour := entryLines_no_nl m e hm he
  rcases hl with rfl | rfl | rfl | rfl
  · exact hfour _ (by simp [entryLines])
  · exact hfour _ (by simp [entryLines])
  · exact hfour _ (by simp [entryLines])
  · intro hmem
    exact hfour (tipsLn m e) (by simp [entryLines])
      (mem_of_mem_trimRight _ _ hmem)

theorem entryLines_nonheader (m : DiaryMarkers) (e : DiaryEntry) :
    ∀ l ∈ entryLines m e, headerParse l = none ∧ extractDateOfLine l = none := by
  intro l hl
  simp only [entryLines, List.mem_cons, List.not_mem_nil, or_false] at hl
  rcases hl with rfl | rfl | rfl | rfl | rfl
  · exact ⟨headerParse_none_head '-' _ (by decide),
      extractDateOfLine_none_head '-' _ (by decide)⟩
  · exact ⟨headerParse_none_head ' ' _ (by decide),
      extractDateOfLine_none_head ' ' _ (by decide)⟩
  · exact ⟨headerParse_none_head ' ' _ (by decide),
      extractDateOfLine_none_head ' ' _ (by decide)⟩
  · exact ⟨headerParse_none_head ' ' _ (by decide),
      extractDateOfLine_none_head ' ' _ (by decide)⟩
  · exact ⟨headerParse_nil, extractDateOfLine_nil⟩

theorem entryLinesLast_nonheader (m : DiaryMarkers) (e : DiaryEntry) :
    ∀ l ∈ entryLinesLast m e,
      headerParse l = none ∧ extractDateOfLine l = none := by
  intro l hl
  simp only [entryLinesLast, List.mem_cons, List.not_mem_nil, or_false] at hl
  rcases hl with rfl | rfl | rfl | rfl
  · exact ⟨headerParse_none_head '-' _ (by decide),
      extractDateOfLine_none_head '-' _ (by decide)⟩
  · exact ⟨headerParse_none_head ' ' _ (by decide),
      extractDateOfLine_none_head ' ' _ (by decide)⟩
  · exact ⟨headerParse_none_head ' ' _ (by decide),
      extractDateOfLine_none_head ' ' _ (by decide)⟩
  · rcases trimRight_cons_shape ' '
      (' ' :: ((m.tips ++ [' ']) ++ e.tips)) with h | ⟨r, h⟩
    · have htl : tipsLn m e = ' ' :: (' ' :: ((m.tips ++ [' ']) ++ e.tips)) := by
        simp [tipsLn]
      rw [htl, h]
      exact ⟨headerParse_nil, extractDateOfLine_nil⟩
    · have htl : tipsLn m e = ' ' :: (' ' :: ((m.tips ++ [' ']) ++ e.tips)) := by
        simp [tipsLn]
      rw [htl, h]
      exact ⟨headerParse_none_head ' ' _ (by decide),
        extractDateOfLine_none_head ' ' _ (by decide)⟩

theorem headerLine_head (d : DiaryDay) : ∃ r, headerLine d = '#' :: r := by
  cases hdt : d.title with
  | none => exact ⟨_, by rw [headerLine, hdt]; rfl⟩
  | some t =>
    by_cases ht : t = []
    · subst ht
      exact ⟨_, by rw [headerLine, hdt]; rfl⟩
    · exact ⟨_, by rw [headerLine_titled d t hdt ht]; rfl⟩

theorem dayLines_no_nl (m : DiaryMarkers) (d : DiaryDay) (hm : MarkersOk m)
    (hgd : GoodDay d) : ∀ l ∈ dayLines m d, '\n' ∉ l := by
  obtain ⟨hds, ⟨t, htitle, hct⟩, _, hclean⟩ := hgd
  intro l hl
  rw [dayLines, List.mem_cons] at hl
  rcases hl with rfl | hl
  · exact headerLine_no_nl d t htitle hct hds
  · rw [List.mem_flatten] at hl
    obtain ⟨L, hL, hlL⟩ := hl
    rw [List.mem_map] at hL
    obtain ⟨e, he, rfl⟩ := hL
    exact entryLines_no_nl m e hm (hclean e he) l hlL

theorem allLines_no_nl (m : DiaryMarkers) (days : List DiaryDay)
    (hm : MarkersOk m) (hgood : ∀ d ∈ days, GoodDay d) :
    ∀ l ∈ (days.map (dayLines m)).flatten, '\n' ∉ l := by
  intro l hl
  rw [List.mem_flatten] at hl
  obtain ⟨L, hL, hlL⟩ := hl
  rw [List.mem_map] at hL
  obtain ⟨d, hd, rfl⟩ := hL
  exact dayLines_no_nl m d hm (hgood d hd) l hlL

theorem tipsLn_trimRight_ne_nil (m : DiaryMarkers) (e : DiaryEntry)
    (hmk : MarkerOk m.tips) : trimRight (tipsLn m e) ≠ [] := by
  obtain ⟨c0, hc0, hws⟩ := markerOk_head m.tips hmk
  refine trimRight_ne_nil_of_mem _ c0 ?_ hws
  have hc0m : c0 ∈ m.tips := by
    cases hmt : m.tips with
    | nil => rw [hmt] at hc0; cases hc0
    | cons a r =>
      rw [hmt] at hc0
      injection hc0 with hc0
      exact List.mem_cons.mpr (Or.inl hc0.symm)
  rw [tipsLn]
  exact List.mem_append_left _
    (List.mem_append_left _ (List.mem_append_right _ hc0m))

/-- The cleaned written text splits into exactly the processed lines. -/
theorem splitLines_clean_write (m : DiaryMarkers) (days : List DiaryDay)
    (hm : MarkersOk m) (hne : days ≠ [])
    (hgood : ∀ d ∈ days, GoodDay d)
    (hjop : noSubB idColon (write_diary m days) = true) :
    splitLines (clean_joplin_markdown (write_diary m days))
      = procLines m days := by
  rcases List.eq_nil_or_concat days with rfl | ⟨INIT, dL, hdays⟩
  · exact absurd rfl hne
  rw [List.concat_eq_append] at hdays
  subst hdays
  have hgL : GoodDay dL := hgood dL (List.mem_append_right _ (List.mem_singleton.mpr rfl))
  obtain ⟨hds, ⟨t, htitle, hct⟩, hene, hclean⟩ := hgL
  rcases List.eq_nil_or_concat dL.entries with hznil | ⟨ES0, eL, hent⟩
  · exact absurd hznil hene
  rw [List.concat_eq_append] at hent
  have hLL : ((INIT ++ [dL]).map (dayLines m)).flatten
      = ((INIT.map (dayLines m)).flatten
          ++ (headerLine dL :: ((ES0.map (entryLines m)).flatten
            ++ [bulletL eL, trialLn m eL, answerLn m eL])))
        ++ [tipsLn m eL, []] := by
    rw [List.map_append, List.flatten_append]
    simp only [List.map_cons, List.map_nil, List.flatten_cons, List.flatten_nil,
      List.append_nil, dayLines, hent, List.map_append, List.flatten_append]
    simp [entryLines, List.append_assoc]
  have hwrite : write_diary m (INIT ++ [dL])
      = (unlines ((INIT.map (dayLines m)).flatten
          ++ (headerLine dL :: ((ES0.map (entryLines m)).flatten
            ++ [bulletL eL, trialLn m eL, answerLn m eL])))
          ++ tipsLn m eL) ++ ['\n', '\n'] := by
    rw [write_diary, hLL, unlines_append]
    simp [unlines, List.append_assoc]
  rw [clean_joplin_of_noSub _ hjop, hwrite, trim,
    trimRight_append_ws _ ['\n', '\n'] (by decide),
    trimRight_append_of_ne _ _ (tipsLn_trimRight_ne_nil m eL hm.2.2)]
  have hhead : ∃ r, unlines ((INIT.map (dayLines m)).flatten
      ++ (headerLine dL :: ((ES0.map (entryLines m)).flatten
        ++ [bulletL eL, trialLn m eL, answerLn m eL])))
      ++ trimRight (tipsLn m eL) = '#' :: r := by
    cases INIT with
    | nil =>
      obtain ⟨r0, hr0⟩ := headerLine_head dL
      exact ⟨_, by
        simp only [List.map_nil, List.flatten_nil, List.nil_append, unlines_cons,
          hr0]
        rfl⟩
    | cons d1 ds =>
      obtain ⟨r0, hr0⟩ := headerLine_head d1
      exact ⟨_, by
        simp only [List.map_cons, List.flatten_cons, dayLines, List.cons_append,
          unlines_cons, hr0]
        rfl⟩
  obtain ⟨r, hr⟩ := hhead
  rw [hr, trimLeft_cons_nws '#' r (by decide), ← hr,
    splitLines_unlines_append _ _ ?hnl ?hnlt]
  case hnl =>
    intro l hl
    have hmem : l ∈ ((INIT ++ [dL]).map (dayLines m)).flatten := by
      rw [hLL]
      exact List.mem_append_left _ hl
    exact allLines_no_nl m (INIT ++ [dL]) hm hgood l hmem
  case hnlt =>
    intro hmem
    have hemem : eL ∈ dL.entries := by
      rw [hent]
      exact List.mem_append_right _ (List.mem_singleton.mpr rfl)
    exact entryLines_no_nl m eL hm (hclean eL hemem) (tipsLn m eL)
      (by simp [entryLines]) (mem_of_mem_trimRight _ _ hmem)
  rw [procLines_concat, hent, procFlat_concat]
  simp [entryLinesLast, List.append_assoc]

/-! ### Scanning the processed lines -/

theorem collectAfter_all_nonheader (t : Str) (X : List Str)
    (hX : ∀ l ∈ X, headerParse l = none) : collectAfter t X = X := by
  induction X with
  | nil => rfl
  | cons l rest ih =>
    simp only [collectAfter, hX l (List.mem_cons_self _ _)]
    rw [ih (fun x hx => hX x (List.mem_cons_of_mem _ hx))]

theorem collectAfter_nonheader_append (t : Str) (X Y : List Str)
    (hX : ∀ l ∈ X, headerParse l = none) :
    collectAfter t (X ++ Y) = X ++ collectAfter t Y := by
  induction X with
  | nil => rfl
  | cons l rest ih =>
    rw [List.cons_append]
    simp only [collectAfter, hX l (List.mem_cons_self _ _)]
    rw [ih (fun x hx => hX x (List.mem_cons_of_mem _ hx)), List.cons_append]

theorem collectAfter_stop (t : Str) (l : Str) (Y : List Str) (dr : Str × Str)
    (hl : headerParse l = some dr) (hne : dr.1 ≠ t) :
    collectAfter t (l :: Y) = [] := by
  simp only [collectAfter, hl]
  rw [if_neg hne]

theorem getTextLines_cons_nonheader (t l : Str) (Y : List Str)
    (hl : headerParse l = none) :
    getTextLines t (l :: Y) = getTextLines t Y := by
  simp only [getTextLines, hl]

theorem getTextLines_cons_otherheader (t l : Str) (Y : List Str) (dr : Str × Str)
    (hl : headerParse l = some dr) (hne : dr.1 ≠ t) :
    getTextLines t (l :: Y) = getTextLines t Y := by
  simp only [getTextLines, hl]
  rw [if_neg hne]

theorem getTextLines_cons_target (t l : Str) (Y : List Str) (dr : Str × Str)
    (hl : headerParse l = some dr) (heq : dr.1 = t) :
    getTextLines t (l :: Y) = collectAfter t Y := by
  simp only [getTextLines, hl]
  rw [if_pos heq]

theorem getTextLines_skip_append (t : Str) (X Y : List Str)
    (hX : ∀ l ∈ X,
      headerParse l = none ∨ ∃ dr, headerParse l = some dr ∧ dr.1 ≠ t) :
    getTextLines t (X ++ Y) = getTextLines t Y := by
  induction X with
  | nil => rfl
  | cons l rest ih =>
    rw [List.cons_append]
    rcases hX l (List.mem_cons_self _ _) with h | ⟨dr, h, hne⟩
    · rw [getTextLines_cons_nonheader t l _ h,
        ih (fun x hx => hX x (List.mem_cons_of_mem _ hx))]
    · rw [getTextLines_cons_otherheader t l _ dr h hne,
        ih (fun x hx => hX x (List.mem_cons_of_mem _ hx))]

theorem titleScan_cons_nonheader (t l : Str) (Y : List Str)
    (hl : headerParse l = none) : titleScan t (l :: Y) = titleScan t Y := by
  simp only [titleScan, hl]

theorem titleScan_cons_otherheader (t l : Str) (Y : List Str) (dr : Str × Str)
    (hl : headerParse l = some dr) (hne : dr.1 ≠ t) :
    titleScan t (l :: Y) = titleScan t Y := by
  simp only [titleScan, hl]
  rw [if_neg hne]

theorem titleScan_cons_found (t l : Str) (Y : List Str) (dr : Str × Str)
    (hl : headerParse l = some dr) (heq : dr.1 = t)
    (hcol : dr.2.contains ':' = true) :
    titleScan t (l :: Y)
      = some (trim (dr.2.filter (fun c => !(c == ':')))) := by
  simp only [titleScan, hl]
  rw [if_pos heq, if_pos hcol]

theorem titleScan_skip_append (t : Str) (X Y : List Str)
    (hX : ∀ l ∈ X,
      headerParse l = none ∨ ∃ dr, headerParse l = some dr ∧ dr.1 ≠ t) :
    titleScan t (X ++ Y) = titleScan t Y := by
  induction X with
  | nil => rfl
  | cons l rest ih =>
    rw [List.cons_append]
    rcases hX l (List.mem_cons_self _ _) with h | ⟨dr, h, hne⟩
    · rw [titleScan_cons_nonheader t l _ h,
        ih (fun x hx => hX x (List.mem_cons_of_mem _ hx))]
    · rw [titleScan_cons_otherheader t l _ dr h hne,
        ih (fun x hx => hX x (List.mem_cons_of_mem _ hx))]

theorem filterMap_extract_nil (X : List Str)
    (hX : ∀ l ∈ X, extractDateOfLine l = none) :
    X.filterMap extractDateOfLine = [] := by
  induction X with
  | nil => rfl
  | cons l rest ih =>
    rw [List.filterMap_cons, hX l (List.mem_cons_self _ _),
      ih (fun x hx => hX x (List.mem_cons_of_mem _ hx))]

theorem entryFlat_nonheader (m : DiaryMarkers) (es : List DiaryEntry) :
    ∀ l ∈ (es.map (entryLines m)).flatten,
      headerParse l = none ∧ extractDateOfLine l = none := by
  intro l hl
  rw [List.mem_flatten] at hl
  obtain ⟨L, hL, hlL⟩ := hl
  rw [List.mem_map] at hL
  obtain ⟨e, _, rfl⟩ := hL
  exact entryLines_nonheader m e l hlL

theorem procFlat_nonheader (m : DiaryMarkers) (es : List DiaryEntry) :
    ∀ l ∈ procFlat m es,
      headerParse l = none ∧ extractDateOfLine l = none := by
  induction es with
  | nil => intro l hl; cases hl
  | cons e rest ih =>
    cases rest with
    | nil =>
      intro l hl
      exact entryLinesLast_nonheader m e l hl
    | cons e2 rest2 =>
      intro l hl
      rw [procFlat, List.mem_append] at hl
      rcases hl with hl | hl
      · exact entryLines_nonheader m e l hl
      · exact ih l hl

theorem extract_dates_proc (m : DiaryMarkers) (days : List DiaryDay)
    (hgood : ∀ d ∈ days, GoodDay d) :
    (procLines m days).filterMap extractDateOfLine
      = days.map DiaryDay.date := by
  induction days with
  | nil => rfl
  | cons d rest ih =>
    obtain ⟨hds, ⟨t, htitle, hct⟩, _, _⟩ := hgood d (List.mem_cons_self _ _)
    have ihr := ih (fun x hx => hgood x (List.mem_cons_of_mem _ hx))
    cases rest with
    | nil =>
      rw [procLines, List.filterMap_cons,
        extractDateOfLine_headerLine d t htitle hct.1 hds,
        filterMap_extract_nil _ (fun l hl => (procFlat_nonheader m d.entries l hl).2)]
      rfl
    | cons d2 rest2 =>
      rw [procLines, List.filterMap_append, dayLines, List.filterMap_cons,
        extractDateOfLine_headerLine d t htitle hct.1 hds,
        filterMap_extract_nil _
          (fun l hl => (entryFlat_nonheader m d.entries l hl).2),
        ihr]
      rfl

theorem extract_dates_write (m : DiaryMarkers) (days : List DiaryDay)
    (hm : MarkersOk m) (hne : days ≠ [])
    (hgood : ∀ d ∈ days, GoodDay d)
    (hjop : noSubB idColon (write_diary m days) = true) :
    extract_dates_from_md (write_diary m days) = days.map DiaryDay.date := by
  rw [extract_dates_from_md, splitLines_clean_write m days hm hne hgood hjop,
    extract_dates_proc m days hgood]

/-! ### Rebuilding a day block from its collected lines -/

theorem joinNl_append (A B : List Str) (hA : A ≠ []) (hB : B ≠ []) :
    joinNl (A ++ B) = joinNl A ++ '\n' :: joinNl B := by
  induction A with
  | nil => exact absurd rfl hA
  | cons a rest ih =>
    cases rest with
    | nil =>
      rw [List.singleton_append, joinNl_cons_of_ne a B hB]
      simp [joinNl]
    | cons a2 rest2 =>
      rw [List.cons_append,
        joinNl_cons_of_ne a _ (by simp),
        joinNl_cons_of_ne a (a2 :: rest2) (by simp),
        ih (by simp)]
      simp [List.append_assoc]

theorem joinNl_entry4 (m : DiaryMarkers) (e : DiaryEntry) :
    joinNl [bulletL e, trialLn m e, answerLn m e, tipsLn m e]
      = entryCoreText m e := by
  simp [joinNl, bulletL, trialLn, answerLn, tipsLn, entryCoreText,
    List.append_assoc]

theorem entryLines_eq_append (m : DiaryMarkers) (e : DiaryEntry) :
    entryLines m e
      = [bulletL e, trialLn m e, answerLn m e, tipsLn m e] ++ [[]] := rfl

theorem joinNl_entryLines (m : DiaryMarkers) (e : DiaryEntry) :
    joinNl (entryLines m e) = entryCoreText m e ++ ['\n'] := by
  rw [entryLines_eq_append, joinNl_append _ _ (by simp) (by simp),
    joinNl_entry4]
  rfl

theorem joinNl_entryLinesLast (m : DiaryMarkers) (e : DiaryEntry) :
    joinNl (entryLinesLast m e)
      = (joinNl [bulletL e, trialLn m e, answerLn m e] ++ ['\n'])
        ++ trimRight (tipsLn m e) := by
  have h : entryLinesLast m e
      = [bulletL e, trialLn m e, answerLn m e] ++ [trimRight (tipsLn m e)] := rfl
  rw [h, joinNl_append _ _ (by simp) (by simp)]
  simp [joinNl, List.append_assoc]

theorem joinNl_entry3_nl (m : DiaryMarkers) (e : DiaryEntry) :
    (joinNl [bulletL e, trialLn m e, answerLn m e] ++ ['\n']) ++ tipsLn m e
      = entryCoreText m e := by
  rw [← joinNl_entry4]
  simp [joinNl, List.append_assoc]

theorem flatEntry_ne_nil (m : DiaryMarkers) (es : List DiaryEntry)
    (hne : es ≠ []) : (es.map (entryLines m)).flatten ≠ [] := by
  cases es with
  | nil => exact absurd rfl hne
  | cons e rest =>
    simp [entryLines]

theorem procFlat_ne_nil (m : DiaryMarkers) (es : List DiaryEntry)
    (hne : es ≠ []) : procFlat m es ≠ [] := by
  cases es with
  | nil => exact absurd rfl hne
  | cons e rest =>
    cases rest with
    | nil => simp [procFlat, entryLinesLast]
    | cons e2 rest2 => simp [procFlat, entryLines]

theorem dayBlockText_ne_nil (m : DiaryMarkers) (hmp : MarkerOk m.tips)
    (es : List DiaryEntry) (hne : es ≠ [])
    (hclean : ∀ e ∈ es, CleanEntry e) : dayBlockText m es ≠ [] := by
  obtain ⟨r, hr⟩ := dayBlock_starts_dash m hmp es hne hclean
  rw [hr]
  simp

theorem dayBlockText_trimRight (m : DiaryMarkers) (hmp : MarkerOk m.tips)
    (es : List DiaryEntry) (hclean : ∀ e ∈ es, CleanEntry e) :
    trimRight (dayBlockText m es) = dayBlockText m es := by
  induction es with
  | nil => simp [dayBlockText, trimRight]
  | cons e rest ih =>
    cases rest with
    | nil =>
      rw [dayBlockText, trimRight_idem]
    | cons e2 rest2 =>
      have hcr : ∀ x ∈ e2 :: rest2, CleanEntry x :=
        fun x hx => hclean x (List.mem_cons_of_mem _ hx)
      have ihr := ih hcr
      obtain ⟨r, hr⟩ := dayBlock_starts_dash m hmp (e2 :: rest2) (by simp) hcr
      have htrne : trimRight (dayBlockText m (e2 :: rest2)) ≠ [] := by
        rw [ihr, hr]
        simp
      rw [dayBlockText]
      have hsplit : entryCoreText m e ++ '\n' :: '\n' :: dayBlockText m (e2 :: rest2)
          = (entryCoreText m e ++ ['\n', '\n']) ++ dayBlockText m (e2 :: rest2) := by
        simp [List.append_assoc]
      rw [hsplit, trimRight_append_of_ne _ _ htrne, ihr]

theorem trimRight_joinNl_flat (m : DiaryMarkers) (hmp : MarkerOk m.tips)
    (es : List DiaryEntry) (hne : es ≠ [])
    (hclean : ∀ e ∈ es, CleanEntry e) :
    trimRight (joinNl ((es.map (entryLines m)).flatten)) = dayBlockText m es := by
  induction es with
  | nil => exact absurd rfl hne
  | cons e rest ih =>
    cases rest with
    | nil =>
      simp only [List.map_cons, List.map_nil, List.flatten_cons,
        List.flatten_nil, List.append_nil]
      rw [joinNl_entryLines, trimRight_append_ws _ ['\n'] (by decide)]
      rfl
    | cons e2 rest2 =>
      have hcr : ∀ x ∈ e2 :: rest2, CleanEntry x :=
        fun x hx => hclean x (List.mem_cons_of_mem _ hx)
      have ihr := ih (by simp) hcr
      rw [List.map_cons, List.flatten_cons,
        joinNl_append _ _ (by simp [entryLines])
          (flatEntry_ne_nil m (e2 :: rest2) (by simp)),
        joinNl_entryLines]
      have hsplit : (entryCoreText m e ++ ['\n'])
            ++ '\n' :: joinNl (((e2 :: rest2).map (entryLines m)).flatten)
          = (entryCoreText m e ++ ['\n', '\n'])
            ++ joinNl (((e2 :: rest2).map (entryLines m)).flatten) := by
        simp [List.append_assoc]
      rw [hsplit, trimRight_append_trimRight, ihr,
        trimRight_append_of_ne _ _
          (by rw [dayBlockText_trimRight m hmp _ hcr]
              exact dayBlockText_ne_nil m hmp _ (by simp) hcr),
        dayBlockText_trimRight m hmp _ hcr, dayBlockText]
      simp [List.append_assoc]

theorem trimRight_joinNl_procFlat (m : DiaryMarkers) (hmp : MarkerOk m.tips)
    (es : List DiaryEntry) (hne : es ≠ [])
    (hclean : ∀ e ∈ es, CleanEntry e) :
    trimRight (joinNl (procFlat m es)) = dayBlockText m es := by
  induction es with
  | nil => exact absurd rfl hne
  | cons e rest ih =>
    cases rest with
    | nil =>
      rw [procFlat, joinNl_entryLinesLast, trimRight_append_trimRight,
        trimRight_idem, ← trimRight_append_trimRight, joinNl_entry3_nl]
      rfl
    | cons e2 rest2 =>
      have hcr : ∀ x ∈ e2 :: rest2, CleanEntry x :=
        fun x hx => hclean x (List.mem_cons_of_mem _ hx)
      have ihr := ih (by simp) hcr
      rw [procFlat,
        joinNl_append _ _ (by simp [entryLines])
          (procFlat_ne_nil m (e2 :: rest2) (by simp)),
        joinNl_entryLines]
      have hsplit : (entryCoreText m e ++ ['\n'])
            ++ '\n' :: joinNl (procFlat m (e2 :: rest2))
          = (entryCoreText m e ++ ['\n', '\n'])
            ++ joinNl (procFlat m (e2 :: rest2)) := by
        simp [List.append_assoc]
      rw [hsplit, trimRight_append_trimRight, ihr,
        trimRight_append_of_ne _ _
          (by rw [dayBlockText_trimRight m hmp _ hcr]
              exact dayBlockText_ne_nil m hmp _ (by simp) hcr),
        dayBlockText_trimRight m hmp _ hcr, dayBlockText]
      simp [List.append_assoc]

theorem trim_joinNl_flat (m : DiaryMarkers) (hmp : MarkerOk m.tips)
    (es : List DiaryEntry) (hne : es ≠ [])
    (hclean : ∀ e ∈ es, CleanEntry e) :
    trim (joinNl ((es.map (entryLines m)).flatten)) = dayBlockText m es := by
  rw [trim, trimRight_joinNl_flat m hmp es hne hclean]
  obtain ⟨r, hr⟩ := dayBlock_starts_dash m hmp es hne hclean
  rw [hr, trimLeft_cons_nws '-' r (by decide), ← hr]

theorem trim_joinNl_procFlat (m : DiaryMarkers) (hmp : MarkerOk m.tips)
    (es : List DiaryEntry) (hne : es ≠ [])
    (hclean : ∀ e ∈ es, CleanEntry e) :
    trim (joinNl (procFlat m es)) = dayBlockText m es := by
  rw [trim, trimRight_joinNl_procFlat m hmp es hne hclean]
  obtain ⟨r, hr⟩ := dayBlock_starts_dash m hmp es hne hclean
  rw [hr, trimLeft_cons_nws '-' r (by decide), ← hr]

/-! ### Locating one day among the processed lines -/

theorem dayLines_skip (m : DiaryMarkers) (d : DiaryDay) (hgd : GoodDay d)
    (t : Str) (hne : d.date ≠ t) :
    ∀ l ∈ dayLines m d,
      headerParse l = none ∨ ∃ dr, headerParse l = some dr ∧ dr.1 ≠ t := by
  obtain ⟨hds, ⟨t0, htitle, hct⟩, _, _⟩ := hgd
  intro l hl
  rw [dayLines, List.mem_cons] at hl
  rcases hl with rfl | hl
  · exact Or.inr ⟨(d.date, ([':', ' '] ++ t0) ++ [' ']),
      headerParse_headerLine d t0 htitle hct.1 hds, hne⟩
  · exact Or.inl (entryFlat_nonheader m d.entries l hl).1

theorem procLines_cons_head (m : DiaryMarkers) (d1 : DiaryDay)
    (rest2 : List DiaryDay) :
    ∃ R, procLines m (d1 :: rest2) = headerLine d1 :: R := by
  cases rest2 with
  | nil => exact ⟨_, rfl⟩
  | cons d2 r3 => exact ⟨_, rfl⟩

theorem getText_proc (m : DiaryMarkers) (hm : MarkersOk m) :
    ∀ (days : List DiaryDay), (∀ d' ∈ days, GoodDay d') →
      (days.map DiaryDay.date).Nodup →
      ∀ d ∈ days, trim (joinNl (getTextLines d.date (procLines m days)))
        = dayBlockText m d.entries := by
  intro days
  induction days with
  | nil =>
    intro _ _ d hd
    cases hd
  | cons d0 rest ih =>
    intro hgood hnodup d hd
    obtain ⟨hds0, ⟨t0, htitle0, hct0⟩, hene0, hclean0⟩ :=
      hgood d0 (List.mem_cons_self _ _)
    rw [List.map_cons, List.nodup_cons] at hnodup
    rcases List.mem_cons.mp hd with rfl | hdrest
    · cases rest with
      | nil =>
        rw [procLines,
          getTextLines_cons_target _ _ _ _
            (headerParse_headerLine d t0 htitle0 hct0.1 hds0) rfl,
          collectAfter_all_nonheader _ _
            (fun l hl => (procFlat_nonheader m d.entries l hl).1)]
        exact trim_joinNl_procFlat m hm.2.2 d.entries hene0 hclean0
      | cons d1 rest2 =>
        obtain ⟨hds1, ⟨t1, htitle1, hct1⟩, _, _⟩ :=
          hgood d1 (List.mem_cons_of_mem _ (List.mem_cons_self _ _))
        have hne10 : d1.date ≠ d.date := by
          intro hh
          exact hnodup.1 (by
            rw [List.map_cons, List.mem_cons]
            exact Or.inl hh.symm)
        obtain ⟨R, hR⟩ := procLines_cons_head m d1 rest2
        rw [procLines, dayLines, List.cons_append,
          getTextLines_cons_target _ _ _ _
            (headerParse_headerLine d t0 htitle0 hct0.1 hds0) rfl,
          collectAfter_nonheader_append _ _ _
            (fun l hl => (entryFlat_nonheader m d.entries l hl).1),
          hR,
          collectAfter_stop _ _ _ _
            (headerParse_headerLine d1 t1 htitle1 hct1.1 hds1) hne10,
          List.append_nil]
        exact trim_joinNl_flat m hm.2.2 d.entries hene0 hclean0
    · cases rest with
      | nil => cases hdrest
      | cons d1 rest2 =>
        have hne0d : d0.date ≠ d.date := by
          intro hh
          exact hnodup.1 (by
            rw [hh]
            exact List.mem_map_of_mem DiaryDay.date hdrest)
        rw [procLines,
          getTextLines_skip_append _ _ _
            (dayLines_skip m d0 (hgood d0 (List.mem_cons_self _ _)) d.date hne0d)]
        exact ih (fun x hx => hgood x (List.mem_cons_of_mem _ hx))
          hnodup.2 d hdrest

theorem contains_of_mem (l : Str) (c : Char) (h : c ∈ l) :
    l.contains c = true := by
  induction l with
  | nil => cases h
  | cons a r ih =>
    rw [List.contains_cons]
    rcases List.mem_cons.mp h with rfl | h2
    · simp
    · rw [ih h2]
      simp

theorem filter_title_rest (t : Str) (hct : CleanTitle t) :
    ((([':', ' '] ++ t) ++ [' ']).filter (fun c => !(c == ':')))
      = ([' '] ++ t) ++ [' '] := by
  rw [List.filter_append, List.filter_append]
  have ht : t.filter (fun c => !(c == ':')) = t := by
    rw [List.filter_eq_self]
    intro c hc
    have : c ≠ ':' := fun hh => hct.2.2.1 (hh ▸ hc)
    simp [this]
  rw [ht]
  rfl

theorem title_proc (m : DiaryMarkers) :
    ∀ (days : List DiaryDay), (∀ d' ∈ days, GoodDay d') →
      (days.map DiaryDay.date).Nodup →
      ∀ d ∈ days, ∀ t, d.title = some t →
        titleScan d.date (procLines m days) = some t := by
  intro days
  induction days with
  | nil =>
    intro _ _ d hd
    cases hd
  | cons d0 rest ih =>
    intro hgood hnodup d hd t ht
    obtain ⟨hds0, ⟨t0, htitle0, hct0⟩, _, _⟩ := hgood d0 (List.mem_cons_self _ _)
    rw [List.map_cons, List.nodup_cons] at hnodup
    rcases List.mem_cons.mp hd with rfl | hdrest
    · have ht0 : t0 = t := by
        rw [htitle0] at ht
        injection ht
      subst ht0
      obtain ⟨R, hR⟩ := procLines_cons_head m d rest
      rw [hR,
        titleScan_cons_found _ _ _ _
          (headerParse_headerLine d t0 htitle0 hct0.1 hds0) rfl
          (contains_of_mem _ ':' (by simp)),
        filter_title_rest t0 hct0,
        trim_sandwich [' '] t0 [' '] (by decide) (by decide) hct0.2.2.2]
    · cases rest with
      | nil => cases hdrest
      | cons d1 rest2 =>
        have hne0d : d0.date ≠ d.date := by
          intro hh
          exact hnodup.1 (by
            rw [hh]
            exact List.mem_map_of_mem DiaryDay.date hdrest)
        rw [procLines,
          titleScan_skip_append _ _ _
            (dayLines_skip m d0 (hgood d0 (List.mem_cons_self _ _)) d.date hne0d)]
        exact ih (fun x hx => hgood x (List.mem_cons_of_mem _ hx))
          hnodup.2 d hdrest t ht

theorem get_text_write (m : DiaryMarkers) (days : List DiaryDay)
    (hm : MarkersOk m) (hne : days ≠ [])
    (hgood : ∀ d ∈ days, GoodDay d)
    (hnodup : (days.map DiaryDay.date).Nodup)
    (hjop : noSubB idColon (write_diary m days) = true) :
    ∀ d ∈ days,
      get_text_for_date (clean_joplin_markdown (write_diary m days)) d.date
        = dayBlockText m d.entries := by
  intro d hd
  rw [get_text_for_date, splitLines_clean_write m days hm hne hgood hjop]
  exact getText_proc m hm days hgood hnodup d hd

theorem get_title_write (m : DiaryMarkers) (days : List DiaryDay)
    (hm : MarkersOk m) (hne : days ≠ [])
    (hgood : ∀ d ∈ days, GoodDay d)
    (hnodup : (days.map DiaryDay.date).Nodup)
    (hjop : noSubB idColon (write_diary m days) = true) :
    ∀ d ∈ days, ∀ t, d.title = some t →
      get_title_for_date (clean_joplin_markdown (write_diary m days)) d.date
        = some t := by
  intro d hd t ht
  rw [get_title_for_date, splitLines_clean_write m days hm hne hgood hjop]
  exact title_proc m days hgood hnodup d hd t ht

/-! ### Folding the parsed days back into the ordered dict -/

theorem dictSet_fresh {α : Type} (k : Str) (v : α) (d : List (Str × α))
    (h : ∀ p ∈ d, p.1 ≠ k) : dictSet k v d = d ++ [(k, v)] := by
  induction d with
  | nil => rfl
  | cons p rest ih =>
    obtain ⟨k2, v2⟩ := p
    rw [dictSet]
    have hk2 : k2 ≠ k := h (k2, v2) (List.mem_cons_self _ _)
    rw [if_neg hk2, ih (fun q hq => h q (List.mem_cons_of_mem _ hq)),
      List.cons_append]

theorem isEmpty_false_of_ne_nil {α : Type} (l : List α) (h : l ≠ []) :
    l.isEmpty = false := by
  cases l with
  | nil => exact absurd rfl h
  | cons a r => rfl

theorem foldl_dictSet_build (F : Str → List DiaryEntry) :
    ∀ (days : List DiaryDay) (acc : List (Str × List DiaryEntry)),
      (∀ d ∈ days, F d.date = d.entries) →
      (∀ d ∈ days, d.entries ≠ []) →
      (∀ d ∈ days, ∀ p ∈ acc, p.1 ≠ d.date) →
      (days.map DiaryDay.date).Nodup →
      (days.map DiaryDay.date).foldl
        (fun acc2 date =>
          if ((F date).isEmpty) = true then acc2 else dictSet date (F date) acc2)
        acc
      = acc ++ days.map (fun d => (d.date, d.entries)) := by
  intro days
  induction days with
  | nil =>
    intro acc _ _ _ _
    simp
  | cons d0 rest ih =>
    intro acc hF hne hfresh hnodup
    rw [List.map_cons, List.nodup_cons] at hnodup
    rw [List.map_cons, List.foldl_cons, hF d0 (List.mem_cons_self _ _),
      isEmpty_false_of_ne_nil _ (hne d0 (List.mem_cons_self _ _))]
    simp only [Bool.false_eq_true, if_false]
    rw [dictSet_fresh d0.date d0.entries acc
      (fun p hp => hfresh d0 (List.mem_cons_self _ _) p hp)]
    rw [ih (acc ++ [(d0.date, d0.entries)])
      (fun x hx => hF x (List.mem_cons_of_mem _ hx))
      (fun x hx => hne x (List.mem_cons_of_mem _ hx))
      ?fresh hnodup.2]
    · simp
    case fresh =>
      intro d hd p hp
      rcases List.mem_append.mp hp with hp | hp
      · exact hfresh d (List.mem_cons_of_mem _ hd) p hp
      · rcases List.mem_singleton.mp hp with rfl
        intro hh
        have hh2 : d0.date = d.date := hh
        exact hnodup.1 (hh2 ▸ List.mem_map_of_mem DiaryDay.date hd)

theorem dictGet_map_date {α : Type} (g : DiaryDay → α) :
    ∀ (days : List DiaryDay), (days.map DiaryDay.date).Nodup →
      ∀ d ∈ days,
        dictGet d.date (days.map (fun d2 => (d2.date, g d2))) = some (g d) := by
  intro days
  induction days with
  | nil =>
    intro _ d hd
    cases hd
  | cons d0 rest ih =>
    intro hnodup d hd
    rw [List.map_cons, List.nodup_cons] at hnodup
    rcases List.mem_cons.mp hd with rfl | hdrest
    · rw [List.map_cons, dictGet, if_pos rfl]
    · have hne0d : d0.date ≠ d.date := by
        intro hh
        exact hnodup.1 (hh ▸ List.mem_map_of_mem DiaryDay.date hdrest)
      rw [List.map_cons, dictGet, if_neg hne0d]
      exact ih hnodup.2 d hdrest

theorem day_eta (d : DiaryDay) :
    DiaryDay.mk d.date d.title d.entries = d := rfl

/-- C2: for every diary whose days carry well-shaped pairwise-distinct dates,
a nonempty single-line colon-free stripped title, and at least one complete
clean entry each (fields single-line, stripped, free of `*`, `:` and `-`),
and whose written text contains no Joplin `id:` metadata pattern,
re-parsing the text produced by `write_diary` with `markdown_diary_to_dict`
reproduces the diary exactly: `parse (write d) = d`. -/
theorem write_diary_markdown_roundtrip (m : DiaryMarkers)
    (genTitle : List DiaryEntry → Str) (days : List DiaryDay)
    (hm : MarkersOk m)
    (hgood : ∀ d ∈ days, GoodDay d)
    (hcomplete : ∀ d ∈ days, ∀ e ∈ d.entries, e.study ≠ [])
    (hnodup : (days.map DiaryDay.date).Nodup)
    (hjop : noSubB idColon (write_diary m days) = true) :
    markdown_diary_to_dict m genTitle (write_diary m days) = Except.ok days := by
  rcases eq_or_ne days [] with rfl | hne
  · rfl
  have hdates := extract_dates_write m days hm hne hgood hjop
  have hF : ∀ d ∈ days,
      (findEntries m (get_text_for_date
        (clean_joplin_markdown (write_diary m days)) d.date)).map parseEntryTuple
      = d.entries := by
    intro d hd
    rw [get_text_write m days hm hne hgood hnodup hjop d hd,
      findEntries_dayBlock m hm d.entries (hgood d hd).2.2.2, List.map_map]
    have hpt : ∀ e ∈ d.entries, (parseEntryTuple ∘ tupleOf) e = id e :=
      fun e he => parseEntryTuple_clean e ((hgood d hd).2.2.2 e he)
    rw [List.map_congr_left hpt, List.map_id]
  have hdd0 := foldl_dictSet_build
    (fun date => (findEntries m (get_text_for_date
      (clean_joplin_markdown (write_diary m days)) date)).map parseEntryTuple)
    days [] hF (fun d hd => (hgood d hd).2.2.1)
    (fun d _ p hp => absurd hp (List.not_mem_nil p)) hnodup
  rw [List.nil_append] at hdd0
  have hddEq : (extract_dates_from_md (write_diary m days)).foldl
      (fun acc date =>
        let block := get_text_for_date
          (clean_joplin_markdown (write_diary m days)) date
        let es := (findEntries m block).map parseEntryTuple
        if es.isEmpty then acc else dictSet date es acc) []
      = days.map (fun d => (d.date, d.entries)) := by
    rw [hdates]
    exact hdd0
  have hguard : ((days.map DiaryDay.date).all
      (fun date =>
        (dictGet date (days.map (fun d => (d.date, d.entries)))).isSome)) = true := by
    rw [List.all_eq_true]
    intro date hdate
    rw [List.mem_map] at hdate
    obtain ⟨d, hd, rfl⟩ := hdate
    rw [dictGet_map_date (fun d2 => d2.entries) days hnodup d hd]
    rfl
  have htitles : get_all_days_title false genTitle
      (clean_joplin_markdown (write_diary m days))
      (days.map (fun d => (d.date, d.entries)))
      = days.map (fun d => (d.date, d.title)) := by
    rw [get_all_days_title, if_neg (by decide : ¬ (false = true)), List.map_map]
    refine List.map_congr_left ?_
    intro d hd
    obtain ⟨t, ht, hct⟩ := (hgood d hd).2.1
    show (d.date,
      match get_title_for_date
        (clean_joplin_markdown (write_diary m days)) d.date with
      | some t2 => some t2
      | none =>
        if globallyComplete (days.map (fun d2 => (d2.date, d2.entries))) = true
        then some (genTitle d.entries) else none) = (d.date, d.title)
    rw [get_title_write m days hm hne hgood hnodup hjop d hd t ht, ht]
  have hfinal : (days.map (fun d => (d.date, d.entries))).map
      (fun p => DiaryDay.mk p.1
        ((dictGet p.1 (days.map (fun d => (d.date, d.title)))).getD none) p.2)
      = days := by
    rw [List.map_map]
    have hpt : ∀ d ∈ days,
        ((fun p => DiaryDay.mk p.1
            ((dictGet p.1 (days.map (fun d2 => (d2.date, d2.title)))).getD none)
            p.2)
          ∘ (fun d2 => (d2.date, d2.entries))) d = id d := by
      intro d hd
      show DiaryDay.mk d.date
        ((dictGet d.date (days.map (fun d2 => (d2.date, d2.title)))).getD none)
        d.entries = d
      rw [dictGet_map_date (fun d2 => d2.title) days hnodup d hd]
      exact day_eta d
    rw [List.map_congr_left hpt, List.map_id]
  have hmain : ∀ (dd : List (Str × List DiaryEntry)),
      dd = days.map (fun d => (d.date, d.entries)) →
      (if ((extract_dates_from_md (write_diary m days)).all
          (fun date => (dictGet date dd).isSome)) = true
       then Except.ok (dd.map (fun p => DiaryDay.mk p.1
         ((dictGet p.1 (get_all_days_title false genTitle
           (clean_joplin_markdown (write_diary m days)) dd)).getD none)
         p.2))
       else Except.error ()) = Except.ok days := by
    intro dd hddE
    subst hddE
    rw [hdates, if_pos hguard, htitles, hfinal]
  exact hmain _ hddEq

/-! ### Concrete diaries for witnesses and counterexamples -/

/-- Markers `Trial:` / `Answer:` / `Tips:` as in the default config. -/
def mW : DiaryMarkers :=
  { trial := ['T', 'r', 'i', 'a', 'l', ':'],
    answer := ['A', 'n', 's', 'w', 'e', 'r', ':'],
    tips := ['T', 'i', 'p', 's', ':'] }

/-- A constant title collaborator. -/
def genW : List DiaryEntry → Str := fun _ => ['G']

def dayW1 : DiaryDay :=
  { date := ['2', '0', '2', '5', '/', '0', '1', '/', '2', '8'],
    title := some ['M', 'i', 'n', ' ', 'd', 'a', 'g'],
    entries :=
      [{ primary := ['H', 'e', 'i'], trial := ['j', 'e', 'g'],
         study := ['J', 'a'], tips := ['b', 'r', 'a'] },
       { primary := ['T', 'o'], trial := [],
         study := ['N', 'e', 'i'], tips := [] }] }

def dayW2 : DiaryDay :=
  { date := ['2', '0', '2', '5', '/', '0', '2', '/', '0', '1'],
    title := some ['T', 'o', 'p', 'p'],
    entries :=
      [{ primary := ['T', 'r', 'e'], trial := ['t', '3'],
         study := ['T', 'r', 'e', 'd', 'j', 'e'], tips := ['x'] }] }

theorem mW_ok : MarkersOk mW :=
  ⟨⟨by decide, by decide, by decide, by decide,
     noOccur_of_noSubB _ _ (by decide)⟩,
   ⟨by decide, by decide, by decide, by decide,
     noOccur_of_noSubB _ _ (by decide)⟩,
   ⟨by decide, by decide, by decide, by decide,
     noOccur_of_noSubB _ _ (by decide)⟩⟩

theorem daysW_good : ∀ d ∈ [dayW1, dayW2], GoodDay d := by
  intro d hd
  rcases List.mem_cons.mp hd with rfl | hd2
  · exact ⟨by decide, ⟨_, rfl, by decide⟩, by decide, by decide⟩
  rcases List.mem_cons.mp hd2 with rfl | hd3
  · exact ⟨by decide, ⟨_, rfl, by decide⟩, by decide, by decide⟩
  · cases hd3

theorem write_diary_markdown_roundtrip_witness :
    markdown_diary_to_dict mW genW (write_diary mW [dayW1, dayW2])
      = Except.ok [dayW1, dayW2] :=
  write_diary_markdown_roundtrip mW genW [dayW1, dayW2]
    mW_ok daysW_good (by decide) (by decide) (by decide)

def dayHyph : DiaryDay :=
  { date := ['2', '0', '2', '5', '/', '0', '1', '/', '2', '8'],
    title := some ['T'],
    entries :=
      [{ primary := ['H', 'e', 'i'], trial := ['x'],
         study := ['J', 'a'], tips := ['a', ' ', '-', ' ', 'b'] }] }

/-- `dayHyph` with its tips cut at the ` - `. -/
def dayHyphCut : DiaryDay :=
  { date := ['2', '0', '2', '5', '/', '0', '1', '/', '2', '8'],
    title := some ['T'],
    entries :=
      [{ primary := ['H', 'e', 'i'], trial := ['x'],
         study := ['J', 'a'], tips := ['a'] }] }

/-- C2 counterexample: an entry whose tips contain ` - ` comes back truncated
at the hyphen (the final lazy group of the entry regex stops before a `-`),
so write-then-parse is not the identity on this fully complete diary. -/
theorem write_diary_markdown_roundtrip_cex :
    markdown_diary_to_dict mW genW (write_diary mW [dayHyph])
      = Except.ok [dayHyphCut] ∧ dayHyphCut ≠ dayHyph := by
  constructor
  · rfl
  · decide

/-! ### C5: preservation of an existing header title -/

theorem get_all_days_title_write (m : DiaryMarkers) (days : List DiaryDay)
    (gen : List DiaryEntry → Str)
    (hm : MarkersOk m) (hne : days ≠ [])
    (hgood : ∀ d ∈ days, GoodDay d)
    (hnodup : (days.map DiaryDay.date).Nodup)
    (hjop : noSubB idColon (write_diary m days) = true) :
    get_all_days_title false gen (clean_joplin_markdown (write_diary m days))
      (days.map (fun d => (d.date, d.entries)))
      = days.map (fun d => (d.date, d.title)) := by
  rw [get_all_days_title, if_neg (by decide : ¬ (false = true)), List.map_map]
  refine List.map_congr_left ?_
  intro d hd
  obtain ⟨t, ht, hct⟩ := (hgood d hd).2.1
  show (d.date,
    match get_title_for_date
      (clean_joplin_markdown (write_diary m days)) d.date with
    | some t2 => some t2
    | none =>
      if globallyComplete (days.map (fun d2 => (d2.date, d2.entries))) = true
      then some (gen d.entries) else none) = (d.date, d.title)
  rw [get_title_write m days hm hne hgood hnodup hjop d hd t ht, ht]

/-- C5: in the text written for a well-formed diary, a day whose header
carries an explicit title (single-line, colon-free, stripped) yields back
exactly that title through `get_title_for_date`, and `get_all_days_title`
records exactly that title for the day whatever the title collaborator is:
an enrichment run neither regenerates nor alters it. -/
theorem existing_title_preserved (m : DiaryMarkers) (days : List DiaryDay)
    (gen : List DiaryEntry → Str)
    (hm : MarkersOk m) (hne : days ≠ [])
    (hgood : ∀ d ∈ days, GoodDay d)
    (hnodup : (days.map DiaryDay.date).Nodup)
    (hjop : noSubB idColon (write_diary m days) = true)
    (d : DiaryDay) (hd : d ∈ days) (t : Str) (ht : d.title = some t) :
    get_title_for_date (clean_joplin_markdown (write_diary m days)) d.date
        = some t
    ∧ dictGet d.date (get_all_days_title false gen
        (clean_joplin_markdown (write_diary m days))
        (days.map (fun d2 => (d2.date, d2.entries)))) = some (some t) := by
  refine ⟨get_title_write m days hm hne hgood hnodup hjop d hd t ht, ?_⟩
  rw [get_all_days_title_write m days gen hm hne hgood hnodup hjop,
    dictGet_map_date (fun d2 => d2.title) days hnodup d hd, ht]

theorem existing_title_preserved_witness :
    get_title_for_date (clean_joplin_markdown (write_diary mW [dayW1, dayW2]))
        dayW1.date
      = some ['M', 'i', 'n', ' ', 'd', 'a', 'g']
    ∧ dictGet dayW1.date (get_all_days_title false genW
        (clean_joplin_markdown (write_diary mW [dayW1, dayW2]))
        ([dayW1, dayW2].map (fun d2 => (d2.date, d2.entries))))
      = some (some ['M', 'i', 'n', ' ', 'd', 'a', 'g']) :=
  existing_title_preserved mW [dayW1, dayW2] genW mW_ok (by decide)
    daysW_good (by decide) (by decide) dayW1 (by decide)
    ['M', 'i', 'n', ' ', 'd', 'a', 'g'] (by decide)

/-- C5 counterexample: a header whose title itself contains a colon is not
preserved character-for-character: `get_title_for_date` deletes every colon
from the captured title, so `a:b` comes back as `ab`. -/
theorem get_title_colon_cex :
    get_title_for_date
      (['#', '#', ' '] ++ ['2', '0', '2', '5', '/', '0', '1', '/', '2', '8']
        ++ [':', ' '] ++ ['a', ':', 'b'] ++ [' '])
      ['2', '0', '2', '5', '/', '0', '1', '/', '2', '8']
      = some ['a', 'b'] ∧ (['a', 'b'] : Str) ≠ ['a', ':', 'b'] :=
  ⟨by rfl, by decide⟩

/-! ### C7: entries with a missing or empty answer line -/

/-- C7 (amended direction): an entry whose answer-marker line is present but
carries an empty translation parses back as itself — returned with empty
`study_language_sentence`, hence eligible for enrichment, not dropped. -/
theorem entry_empty_answer_parsed (m : DiaryMarkers) (hm : MarkersOk m)
    (e : DiaryEntry) (he : CleanEntry e) (hstudy : e.study = []) :
    (findEntries m (dayBlockText m [e])).map parseEntryTuple = [e] := by
  rw [findEntries_dayBlock m hm [e] (by
    intro x hx
    rcases List.mem_cons.mp hx with rfl | hx2
    · exact he
    · cases hx2)]
  simp only [List.map_cons, List.map_nil]
  rw [parseEntryTuple_clean e he]

/-- An incomplete entry: empty study translation. -/
def eInc : DiaryEntry :=
  { primary := ['P'], trial := ['t'], study := [], tips := ['x'] }

theorem entry_empty_answer_parsed_witness :
    (findEntries mW (dayBlockText mW [eInc])).map parseEntryTuple = [eInc] :=
  entry_empty_answer_parsed mW mW_ok eInc (by decide) (by decide)

/-- The written lines of a bullet whose answer-marker line is missing
entirely: `- **P**`, a trial line, a tips line, no answer line. -/
def blockNoAnswer : Str :=
  ['-', ' ', '*', '*', 'P', '*', '*', '\n',
   ' ', ' ', 'T', 'r', 'i', 'a', 'l', ':', ' ', 't', '\n',
   ' ', ' ', 'T', 'i', 'p', 's', ':', ' ', 'x']

/-- C7 counterexample: with the answer marker line missing entirely, the
entry regex of `markdown_diary_to_dict` finds no match: the bullet is
silently dropped rather than returned as an incomplete entry. -/
theorem findEntries_missing_answer_cex :
    findEntries mW blockNoAnswer = [] := by rfl

/-! ### C4: untitled days get a title only when complete -/

theorem globallyComplete_false_of (dd : List (Str × List DiaryEntry))
    (p : Str × List DiaryEntry) (e : DiaryEntry) (hp : p ∈ dd)
    (he : e ∈ p.2) (hse : e.study = []) : globallyComplete dd = false := by
  cases hg : globallyComplete dd with
  | false => rfl
  | true =>
    exfalso
    rw [globallyComplete, List.all_eq_true] at hg
    have h2 := hg p hp
    rw [List.all_eq_true] at h2
    have h3 := h2 e he
    rw [hse] at h3
    exact absurd h3 (by decide)

/-- C4: on an existing diary, a day whose source header carries no title is
mapped to `none` by `get_all_days_title` whenever one of its entries has an
empty study translation, and is mapped to a title only when every entry of
that day is complete. -/
theorem get_all_days_title_untitled_day (gen : List DiaryEntry → Str)
    (allText : Str) (dd : List (Str × List DiaryEntry)) (i : Nat)
    (hi : i < dd.length)
    (hi2 : i < (get_all_days_title false gen allText dd).length)
    (hnotitle : get_title_for_date allText dd[i].1 = none) :
    ((∃ e ∈ dd[i].2, e.study = []) →
      (get_all_days_title false gen allText dd)[i] = (dd[i].1, none))
    ∧ (∀ t : Str,
        (get_all_days_title false gen allText dd)[i] = (dd[i].1, some t) →
        ∀ e ∈ dd[i].2, e.study ≠ []) := by
  have hmapform : get_all_days_title false gen allText dd
      = dd.map (fun p =>
        (p.1, match get_title_for_date allText p.1 with
          | some t => some t
          | none =>
            if globallyComplete dd = true then some (gen p.2) else none)) := by
    rw [get_all_days_title, if_neg (by decide : ¬ (false = true))]
  have hval : (get_all_days_title false gen allText dd)[i]
      = (dd[i].1,
        if globallyComplete dd = true then some (gen dd[i].2) else none) := by
    rw [List.getElem_of_eq hmapform hi2, List.getElem_map]
    show (dd[i].1,
      match get_title_for_date allText dd[i].1 with
      | some t => some t
      | none =>
        if globallyComplete dd = true then some (gen dd[i].2) else none) = _
    rw [hnotitle]
  constructor
  · rintro ⟨e, he, hse⟩
    rw [hval,
      globallyComplete_false_of dd _ e (List.getElem_mem hi) he hse]
    rfl
  · intro t hEq e he hse
    rw [hval,
      globallyComplete_false_of dd _ e (List.getElem_mem hi) he hse] at hEq
    have h2 := congrArg Prod.snd hEq
    simp only [Bool.false_eq_true, if_false] at h2
    cases h2

theorem get_all_days_title_untitled_day_witness :
    (get_all_days_title false genW []
      [(['2', '0', '2', '5', '/', '0', '1', '/', '2', '8'], [eInc])]).get
        ⟨0, by decide⟩
      = (['2', '0', '2', '5', '/', '0', '1', '/', '2', '8'], none) := by
  have h := (get_all_days_title_untitled_day genW []
    [(['2', '0', '2', '5', '/', '0', '1', '/', '2', '8'], [eInc])] 0
    (by decide) (by decide) (by decide)).1
    ⟨eInc, by decide, by decide⟩
  exact h

end LingoAnki
